import Mathlib

/-!
Formal model of the asynchronous sinc resampler implemented in
`src/asynchro.rs` (the rubato crate's `asynchro` module).

The sample type `T` (either `f32` or `f64` in the source) is modelled by `ℚ`:
arithmetic is exact, so the embedding captures the real-number meaning of the
code; statements about IEEE rounding noise are outside this model.  `usize`
indices are modelled by `ℕ`, `isize` by `ℤ`.  A Rust panic (failed `assert!`,
out-of-bounds index, or a wrapping negative-to-`usize` cast followed by an
out-of-bounds access) is modelled by `Option.none`; the `Result`/`Option`
error returns of the source are modelled by explicit error values that are
threaded together with the post-state.
-/

/-- Error values surfaced by the resampler.  The enum lives in
`crate::error` which is outside `src/`; the variants and their fields are
modelled from the spec's error surface (section 6) and from the construction
sites in `src/asynchro.rs`. -/
inductive ResampleError where
  | WrongNumberOfChannels (expected actual : ℕ)
  | WrongNumberOfFrames (channel expected actual : ℕ)
  | WrongNumberOfOutputChannels (expected actual : ℕ)
  | WrongNumberOfOutputFrames (channel expected actual : ℕ)
  | BadRatioUpdate
  deriving DecidableEq

/-- `crate::InterpolationType` as used by the engines' inner loops. -/
inductive InterpolationType where
  | Nearest
  | Linear
  | Cubic
  deriving DecidableEq

/-- The scalar interpolator (`ScalarInterpolator<T>` in the source): a bank of
`nbr_sincs` sinc tables of `length` coefficients each.  The engines hold a
`Box<dyn SincInterpolator<T>>`; the claims concern the scalar implementation,
so the model instantiates the trait object with it. -/
structure ScalarInterpolator where
  sincs : List (List ℚ)
  length : ℕ
  nbr_sincs : ℕ
  deriving DecidableEq

/-- Accumulator `acc_j` of the 8-way unrolled dot-product loop after `G`
groups of eight taps: the source's `acc_j += wave_cut[8*g+j] * sinc[8*g+j]`
for `g = 0 .. G-1`. -/
def accJ (j : ℕ) (w s : List ℚ) : ℕ → ℚ
  | 0 => 0
  | G + 1 => accJ j w s G + w.getD (8 * G + j) 0 * s.getD (8 * G + j) 0

/-- `ScalarInterpolator::get_sinc_interpolated`.  The two `assert!`s and the
indexing `self.sincs[subindex]` / slicing `&wave[index..index+len]` abort on
violation (`none`); otherwise the eight unrolled accumulators are summed.
Note the first assertion is strict: `index + length < wave.len()`. -/
def ScalarInterpolator.get_sinc_interpolated (ip : ScalarInterpolator)
    (wave : List ℚ) (index subindex : ℕ) : Option ℚ :=
  if index + ip.length < wave.length then
    if subindex < ip.nbr_sincs then
      match ip.sincs.get? subindex with
      | none => none
      | some sinc =>
        if index + sinc.length ≤ wave.length then
          let wave_cut := (wave.drop index).take sinc.length
          let G := wave_cut.length / 8
          some (accJ 0 wave_cut sinc G + accJ 1 wave_cut sinc G +
                accJ 2 wave_cut sinc G + accJ 3 wave_cut sinc G +
                accJ 4 wave_cut sinc G + accJ 5 wave_cut sinc G +
                accJ 6 wave_cut sinc G + accJ 7 wave_cut sinc G)
        else none
    else none
  else none

/-- The naive reference dot product of the test module
(`tests::get_sinc_interpolated`): a left fold over `wave_cut.zip(sinc)`. -/
def naiveSincRef (wave : List ℚ) (index : ℕ) (sinc : List ℚ) : ℚ :=
  (((wave.drop index).take sinc.length).zip sinc).foldl
    (fun acc p => acc + p.1 * p.2) 0

/-- Well-formedness of an interpolator, as guaranteed by
`ScalarInterpolator::new`: the sinc length is a positive multiple of 8 and the
bank holds `nbr_sincs` tables of `length` coefficients each. -/
def ScalarInterpolator.Wf (ip : ScalarInterpolator) : Prop :=
  0 < ip.length ∧ ip.length % 8 = 0 ∧ ip.sincs.length = ip.nbr_sincs ∧
    ∀ s ∈ ip.sincs, s.length = ip.length

instance (ip : ScalarInterpolator) : Decidable ip.Wf :=
  decidable_of_iff
    (0 < ip.length ∧ ip.length % 8 = 0 ∧ ip.sincs.length = ip.nbr_sincs ∧
      ∀ s ∈ ip.sincs, s.length = ip.length) Iff.rfl

/- ### Basic list lemmas used throughout -/

theorem getD_set_self {α : Type} (l : List α) (n : ℕ) (a d : α)
    (h : n < l.length) : (l.set n a).getD n d = a := by
  induction l generalizing n with
  | nil => simp at h
  | cons x xs ih =>
    cases n with
    | zero => rfl
    | succ m => simpa using ih m (by simpa using h)

theorem getD_set_ne {α : Type} (l : List α) (m n : ℕ) (a d : α)
    (h : m ≠ n) : (l.set m a).getD n d = l.getD n d := by
  induction l generalizing m n with
  | nil => rfl
  | cons x xs ih =>
    cases m with
    | zero => cases n with
      | zero => exact absurd rfl h
      | succ k => rfl
    | succ m' => cases n with
      | zero => rfl
      | succ k => simpa using ih m' k (by omega)

theorem set_oob {α : Type} (l : List α) (n : ℕ) (a : α)
    (h : l.length ≤ n) : l.set n a = l := by
  induction l generalizing n with
  | nil => rfl
  | cons x xs ih =>
    cases n with
    | zero => simp at h
    | succ m => simpa using ih m (by simpa using h)

theorem getD_take_drop (wave : List ℚ) (index n i : ℕ) (hi : i < n) :
    ((wave.drop index).take n).getD i 0 = wave.getD (index + i) 0 := by
  have h1 : ((wave.drop index).take n)[i]? = (wave.drop index)[i]? :=
    List.getElem?_take_of_lt hi
  have h2 : (wave.drop index)[i]? = wave[index + i]? := List.getElem?_drop _ _ _
  simp [List.getD_eq_getElem?_getD, h1, h2]

/- ### The unrolled dot product equals the naive sum -/

theorem accJ_total (w s : List ℚ) (G : ℕ) :
    accJ 0 w s G + accJ 1 w s G + accJ 2 w s G + accJ 3 w s G +
      accJ 4 w s G + accJ 5 w s G + accJ 6 w s G + accJ 7 w s G
      = ∑ i ∈ Finset.range (8 * G), w.getD i 0 * s.getD i 0 := by
  induction G with
  | zero => simp [accJ]
  | succ G ih =>
    rw [show 8 * (G + 1) = 8 * G + 7 + 1 by ring, Finset.sum_range_succ,
      show 8 * G + 7 = 8 * G + 6 + 1 by ring, Finset.sum_range_succ,
      show 8 * G + 6 = 8 * G + 5 + 1 by ring, Finset.sum_range_succ,
      show 8 * G + 5 = 8 * G + 4 + 1 by ring, Finset.sum_range_succ,
      show 8 * G + 4 = 8 * G + 3 + 1 by ring, Finset.sum_range_succ,
      show 8 * G + 3 = 8 * G + 2 + 1 by ring, Finset.sum_range_succ,
      show 8 * G + 2 = 8 * G + 1 + 1 by ring, Finset.sum_range_succ,
      show 8 * G + 1 = 8 * G + 0 + 1 by ring, Finset.sum_range_succ]
    simp only [accJ]
    rw [← ih]
    ring

theorem foldl_mul_add (l : List (ℚ × ℚ)) (a : ℚ) :
    l.foldl (fun acc p => acc + p.1 * p.2) a
      = a + l.foldl (fun acc p => acc + p.1 * p.2) 0 := by
  induction l generalizing a with
  | nil => simp
  | cons x xs ih =>
    simp only [List.foldl_cons]
    rw [ih (a + x.1 * x.2), ih (0 + x.1 * x.2)]
    ring

theorem foldl_zip_eq_sum (w s : List ℚ) :
    (w.zip s).foldl (fun acc p => acc + p.1 * p.2) 0
      = ∑ i ∈ Finset.range (min w.length s.length), w.getD i 0 * s.getD i 0 := by
  induction w generalizing s with
  | nil => simp
  | cons x xs ih =>
    cases s with
    | nil => simp
    | cons y ys =>
      simp only [List.zip_cons_cons, List.foldl_cons]
      rw [foldl_mul_add, ih ys]
      have hmin : min (x :: xs).length (y :: ys).length
          = min xs.length ys.length + 1 := by
        simp [Nat.succ_min_succ]
      rw [hmin, Finset.sum_range_succ']
      simp [List.getD]
      ring

/-- Under the well-formedness of the bank and the source's (strict)
precondition, `get_sinc_interpolated` returns the plain dot product
`Σ_{i<L} wave[index+i] * sinc_k[i]`. -/
theorem get_sinc_interpolated_eq_sum (ip : ScalarInterpolator) (wave : List ℚ)
    (index subindex : ℕ) (hwf : ip.Wf) (hidx : index + ip.length < wave.length)
    (hsub : subindex < ip.nbr_sincs) :
    ip.get_sinc_interpolated wave index subindex
      = some (∑ i ∈ Finset.range ip.length,
          wave.getD (index + i) 0 * (ip.sincs.getD subindex []).getD i 0) := by
  obtain ⟨hpos, hmod, hlen, hall⟩ := hwf
  have hsub' : subindex < ip.sincs.length := by omega
  obtain ⟨sinc, hget⟩ : ∃ sinc, ip.sincs.get? subindex = some sinc :=
    ⟨ip.sincs.get ⟨subindex, hsub'⟩, List.get?_eq_get hsub'⟩
  have hsinc_mem : sinc ∈ ip.sincs := List.get?_mem hget
  have hslen : sinc.length = ip.length := hall _ hsinc_mem
  have hgetD : ip.sincs.getD subindex [] = sinc := by
    simp [List.getD_eq_getElem?_getD, ← List.get?_eq_getElem?, hget]
  rw [ScalarInterpolator.get_sinc_interpolated, if_pos hidx, if_pos hsub, hget]
  have hle : index + sinc.length ≤ wave.length := by omega
  dsimp only
  rw [if_pos hle]
  have hcutlen : ((wave.drop index).take sinc.length).length = sinc.length := by
    simp [List.length_take, List.length_drop]
    omega
  have hG : 8 * (((wave.drop index).take sinc.length).length / 8) = ip.length := by
    rw [hcutlen, hslen, Nat.mul_div_cancel' (Nat.dvd_of_mod_eq_zero hmod)]
  rw [accJ_total, hG, hgetD]
  congr 1
  apply Finset.sum_congr rfl
  intro i hi
  have hi' : i < ip.length := Finset.mem_range.mp hi
  rw [getD_take_drop wave index sinc.length i (by omega)]

/-- The naive reference fold equals the same plain sum. -/
theorem naiveSincRef_eq_sum (wave : List ℚ) (index : ℕ) (sinc : List ℚ)
    (hle : index + sinc.length ≤ wave.length) :
    naiveSincRef wave index sinc
      = ∑ i ∈ Finset.range sinc.length, wave.getD (index + i) 0 * sinc.getD i 0 := by
  rw [naiveSincRef, foldl_zip_eq_sum]
  have hcutlen : ((wave.drop index).take sinc.length).length = sinc.length := by
    simp [List.length_take, List.length_drop]
    omega
  rw [hcutlen, min_self]
  apply Finset.sum_congr rfl
  intro i hi
  rw [getD_take_drop wave index sinc.length i (Finset.mem_range.mp hi)]

/-- A tiny concrete well-formed interpolator used to instantiate theorems:
one sinc table of eight unit coefficients. -/
def ip8 : ScalarInterpolator := ⟨[List.replicate 8 1], 8, 1⟩

/-- A concrete wave of nine unit samples. -/
def wave9 : List ℚ := List.replicate 9 1

/-- C1 (amended): with the source's strict precondition
`index + L < len(wave)` (not the claimed `index + L ≤ len(wave)`) and
`k < K`, `get_sinc_interpolated` completes without aborting and returns the
dot product `Σ_{i=0..L−1} wave[index+i] · sinc_k[i]`; the boundary case
`index + L = len(wave)` is rejected by the first assertion. -/
theorem C1_dot_product_strict (ip : ScalarInterpolator) (wave : List ℚ)
    (index subindex : ℕ) (hwf : ip.Wf) (hidx : index + ip.length < wave.length)
    (hsub : subindex < ip.nbr_sincs) :
    ip.get_sinc_interpolated wave index subindex
      = some (∑ i ∈ Finset.range ip.length,
          wave.getD (index + i) 0 * (ip.sincs.getD subindex []).getD i 0) :=
  get_sinc_interpolated_eq_sum ip wave index subindex hwf hidx hsub

/-- C1 witness: the amended theorem applied at a concrete bank and wave. -/
theorem C1_dot_product_strict_witness :
    ip8.Wf ∧ 0 + ip8.length < wave9.length ∧ 0 < ip8.nbr_sincs ∧
      ip8.get_sinc_interpolated wave9 0 0
        = some (∑ i ∈ Finset.range ip8.length,
            wave9.getD (0 + i) 0 * (ip8.sincs.getD 0 []).getD i 0) :=
  ⟨by decide, by decide, by decide,
    C1_dot_product_strict ip8 wave9 0 0 (by decide) (by decide) (by decide)⟩

/-- C1 counterexample: at the boundary `index + L = len(wave)`, which the
claim says is accepted, the kernel aborts (the first `assert!` is strict). -/
theorem C1_boundary_counterexample :
    ip8.Wf ∧ 0 + ip8.length ≤ (List.replicate 8 (1 : ℚ)).length ∧
      0 < ip8.nbr_sincs ∧
      ip8.get_sinc_interpolated (List.replicate 8 (1 : ℚ)) 0 0 = none := by
  decide

/-- C8: for inputs satisfying the (strict) preconditions, the 8-accumulator
unrolled dot product agrees exactly with the naive left-to-right fold of the
test module — equality holds in exact arithmetic, so in particular the
difference is within `1e-9`. -/
theorem C8_unrolled_matches_naive (ip : ScalarInterpolator) (wave : List ℚ)
    (index subindex : ℕ) (hwf : ip.Wf) (hidx : index + ip.length < wave.length)
    (hsub : subindex < ip.nbr_sincs) :
    ip.get_sinc_interpolated wave index subindex
      = some (naiveSincRef wave index (ip.sincs.getD subindex [])) ∧
    ∀ v, ip.get_sinc_interpolated wave index subindex = some v →
      |v - naiveSincRef wave index (ip.sincs.getD subindex [])|
        ≤ 1 / 1000000000 := by
  have hslen : (ip.sincs.getD subindex []).length = ip.length := by
    obtain ⟨hpos, hmod, hlen, hall⟩ := hwf
    have hsub' : subindex < ip.sincs.length := by omega
    have hgd : ip.sincs.getD subindex [] = ip.sincs[subindex] := by
      simp [List.getD_eq_getElem?_getD, List.getElem?_eq_getElem hsub']
    rw [hgd]
    exact hall _ (List.getElem_mem hsub')
  have h1 : ip.get_sinc_interpolated wave index subindex
      = some (naiveSincRef wave index (ip.sincs.getD subindex [])) := by
    rw [get_sinc_interpolated_eq_sum ip wave index subindex hwf hidx hsub,
      naiveSincRef_eq_sum wave index _ (by omega), hslen]
  refine ⟨h1, fun v hv => ?_⟩
  rw [h1] at hv
  rw [Option.some_inj.mp hv]
  simp

/-- C8 witness: the theorem applied at a concrete bank and wave. -/
theorem C8_unrolled_matches_naive_witness :
    ip8.Wf ∧ 0 + ip8.length < wave9.length ∧ 0 < ip8.nbr_sincs ∧
      ip8.get_sinc_interpolated wave9 0 0
        = some (naiveSincRef wave9 0 (ip8.sincs.getD 0 [])) :=
  ⟨by decide, by decide, by decide,
    (C8_unrolled_matches_naive ip8 wave9 0 0 (by decide) (by decide)
      (by decide)).1⟩

/- ### Micro-interpolators -/

/-- `interp_cubic`: cubic polynomial through points at x = −1, 0, 1, 2, as
written in the source.  The four neighbouring values are passed as a list. -/
def interp_cubic (x : ℚ) (yvals : List ℚ) : ℚ :=
  let y0 := yvals.getD 0 0
  let y1 := yvals.getD 1 0
  let y2 := yvals.getD 2 0
  let y3 := yvals.getD 3 0
  let a0 := y1
  let a1 := -(1 / 3) * y0 - (1 / 2) * y1 + y2 - (1 / 6) * y3
  let a2 := (1 / 2) * (y0 + y2) - y1
  let a3 := (1 / 2) * (y1 - y2) + (1 / 6) * (y3 - y0)
  let x2 := x * x
  let x3 := x2 * x
  a0 + a1 * x + a2 * x2 + a3 * x3

/-- `interp_lin`: linear interpolation between two points at x = 0 and 1. -/
def interp_lin (x : ℚ) (yvals : List ℚ) : ℚ :=
  (1 - x) * yvals.getD 0 0 + x * yvals.getD 1 0

/- ### Nearest-phase helpers

The functions `get_nearest_time`, `get_nearest_times_2` and
`get_nearest_times_4` live in `crate::interpolation`, outside `src/`.
They are modelled from the spec, section 4.5. -/

/-- Modelled from the spec: successor of an `(n, k)` pair on the `K`-lattice,
"with carry when k reaches K (increment n, wrap k)". -/
def nkSucc (K : ℤ) (nk : ℤ × ℤ) : ℤ × ℤ :=
  if nk.2 + 1 ≥ K then (nk.1 + 1, nk.2 + 1 - K) else (nk.1, nk.2 + 1)

/-- Modelled from the spec: predecessor of an `(n, k)` pair on the
`K`-lattice, with borrow when k reaches below 0. -/
def nkPred (K : ℤ) (nk : ℤ × ℤ) : ℤ × ℤ :=
  if nk.2 = 0 then (nk.1 - 1, K - 1) else (nk.1, nk.2 - 1)

/-- Modelled from the spec (4.5), `crate::interpolation::get_nearest_time`:
`n₀ = ⌊idx⌋` and `k₀ = ⌊(idx − n₀)·K⌋`. -/
def get_nearest_time (idx : ℚ) (K : ℤ) : ℤ × ℤ :=
  (⌊idx⌋, ⌊(idx - ⌊idx⌋) * (K : ℚ)⌋)

/-- Modelled from the spec (4.5), `crate::interpolation::get_nearest_times_2`:
two consecutive lattice pairs around `idx`. -/
def get_nearest_times_2 (idx : ℚ) (K : ℤ) : List (ℤ × ℤ) :=
  let p0 := get_nearest_time idx K
  [p0, nkSucc K p0]

/-- Modelled from the spec (4.5), `crate::interpolation::get_nearest_times_4`:
four consecutive lattice pairs, two before and two after `idx`. -/
def get_nearest_times_4 (idx : ℚ) (K : ℤ) : List (ℤ × ℤ) :=
  let p0 := get_nearest_time idx K
  [nkPred K p0, p0, nkSucc K p0, nkSucc K (nkSucc K p0)]

/- ### One interpolated point, one output sample -/

/-- One call `self.interpolator.get_sinc_interpolated(buf, (n.0 + 2*sinc_len
as isize) as usize, n.1 as usize)`.  A negative value on either cast wraps to
a huge `usize` in Rust and then aborts on the assertions; modelled as
`none`. -/
def interpAt (ip : ScalarInterpolator) (buf : List ℚ) (nk : ℤ × ℤ) :
    Option ℚ :=
  if 0 ≤ nk.1 + 2 * (ip.length : ℤ) ∧ 0 ≤ nk.2 then
    ip.get_sinc_interpolated buf (nk.1 + 2 * (ip.length : ℤ)).toNat nk.2.toNat
  else none

/-- The interpolated points for a list of lattice pairs (the source's
`for (n, p) in nearest.iter().zip(points.iter_mut())` loop). -/
def pointsAt (ip : ScalarInterpolator) (buf : List ℚ) :
    List (ℤ × ℤ) → Option (List ℚ)
  | [] => some []
  | nk :: rest =>
    match interpAt ip buf nk, pointsAt ip buf rest with
    | some p, some ps => some (p :: ps)
    | _, _ => none

/-- One output sample for one channel at cursor position `idx` (after the
`idx += t_ratio` step): the body of the per-channel part of the inner loops,
shared verbatim by both engines.  The source duplicates the loop in each
`match self.interpolation` arm; here the match is inside the per-sample
function instead, which computes the same values. -/
def calcSample (ip : ScalarInterpolator) (itype : InterpolationType)
    (buf : List ℚ) (idx : ℚ) : Option ℚ :=
  let K : ℤ := (ip.nbr_sincs : ℤ)
  match itype with
  | InterpolationType.Cubic =>
    let frac := idx * (ip.nbr_sincs : ℚ) - ⌊idx * (ip.nbr_sincs : ℚ)⌋
    match pointsAt ip buf (get_nearest_times_4 idx K) with
    | some points => some (interp_cubic frac points)
    | none => none
  | InterpolationType.Linear =>
    let frac := idx * (ip.nbr_sincs : ℚ) - ⌊idx * (ip.nbr_sincs : ℚ)⌋
    match pointsAt ip buf (get_nearest_times_2 idx K) with
    | some points => some (interp_lin frac points)
    | none => none
  | InterpolationType.Nearest => interpAt ip buf (get_nearest_time idx K)

/- ### Buffer slide, input copy, per-channel folds -/

/-- One buffer row of the carry-over slide `for idx in 0..2*sinc_len
{ wav[idx] = wav[idx + shift] }`.  Reads past the row's end abort
(`none`). -/
def slideRow (shift sinc_len : ℕ) (wav : List ℚ) : Option (List ℚ) :=
  if 2 * sinc_len = 0 then some wav
  else if 2 * sinc_len + shift ≤ wav.length then
    some ((List.range wav.length).map fun i =>
      if i < 2 * sinc_len then wav.getD (i + shift) 0 else wav.getD i 0)
  else none

/-- The slide applied to every channel's row in order
(`for wav in self.buffer.iter_mut()`). -/
def slideAll (shift sinc_len : ℕ) : List (List ℚ) → Option (List (List ℚ))
  | [] => some []
  | row :: rest =>
    match slideRow shift sinc_len row, slideAll shift sinc_len rest with
    | some r, some rs => some (r :: rs)
    | _, _ => none

/-- Copying one channel's fresh input into buffer positions
`[2*sinc_len, 2*sinc_len + input.len())`; writes past the row's end
abort. -/
def copyRow (sinc_len : ℕ) (input wav : List ℚ) : Option (List ℚ) :=
  if input.length = 0 then some wav
  else if 2 * sinc_len + input.length ≤ wav.length then
    some ((List.range wav.length).map fun i =>
      if 2 * sinc_len ≤ i ∧ i < 2 * sinc_len + input.length then
        input.getD (i - 2 * sinc_len) 0
      else wav.getD i 0)
  else none

/-- A fold over the used-channel list that replaces row `chan` by
`g chan row`; the indexing `rows[chan]` aborts when out of range, and so does
a failing `g`.  Both the input-copy loops and the per-sample channel loops of
the source have this shape. -/
def usedFoldM (g : ℕ → List ℚ → Option (List ℚ)) :
    List ℕ → List (List ℚ) → Option (List (List ℚ))
  | [], rows => some rows
  | chan :: rest, rows =>
    if chan < rows.length then
      match g chan (rows.getD chan []) with
      | some r => usedFoldM g rest (rows.set chan r)
      | none => none
    else none

/- ### Input validation -/

/-- The channel scan of both `process` functions: walks `wave_in`, pushing
the index of every non-empty row onto `used` (the push happens before the
length check, exactly as in the source) and stopping at the first non-empty
row whose length differs from `expected`. -/
def validateChans (expected : ℕ) : ℕ → List (List ℚ) → List ℕ →
    (Option ResampleError) × List ℕ
  | _, [], used => (none, used)
  | chan, w :: rest, used =>
    if w = [] then validateChans expected (chan + 1) rest used
    else
      if w.length ≠ expected then
        (some (ResampleError.WrongNumberOfFrames chan expected w.length),
          used ++ [chan])
      else validateChans expected (chan + 1) rest (used ++ [chan])

/-- The indices of the non-empty rows of a channel list, in order: the value
of `used_channels` after a successful validation. -/
def usedIdx : List (List ℚ) → List ℕ
  | [] => []
  | w :: rest =>
    if w = [] then (usedIdx rest).map (· + 1)
    else 0 :: (usedIdx rest).map (· + 1)

/-- Output validation of the borrowed-output `process`: only the rows of
used (non-empty input) channels are length-checked.  Outer `none` is the
(unreachable at the call site) abort of `wave_out[chan]`. -/
def validateOut (chunk_size : ℕ) (wout : List (List ℚ)) :
    List ℕ → Option (Option ResampleError)
  | [] => some none
  | chan :: rest =>
    if chan < wout.length then
      if (wout.getD chan []).length ≠ chunk_size then
        some (some (ResampleError.WrongNumberOfOutputFrames chan chunk_size
          (wout.getD chan []).length))
      else validateOut chunk_size wout rest
    else none

/- ### The inner loops -/

/-- The per-sample step applied to every used channel: compute the point(s)
for the channel's buffer and write the combined sample at output position
`n`; the write `wave_out[chan][n]` aborts when out of range. -/
def channelPass (ip : ScalarInterpolator) (itype : InterpolationType)
    (buffer : List (List ℚ)) (used : List ℕ) (idx : ℚ) (n : ℕ)
    (wout : List (List ℚ)) : Option (List (List ℚ)) :=
  usedFoldM (fun chan row =>
    if chan < buffer.length then
      match calcSample ip itype (buffer.getD chan []) idx with
      | some v => if n < row.length then some (row.set n v) else none
      | none => none
    else none) used wout

/-- The counted inner loop of `SincFixedOut::process_unchecked`:
`for n in 0..chunk_size { idx += t_ratio; ... }`, `count` iterations
remaining and `n` the next output position. -/
def loopFrom (ip : ScalarInterpolator) (itype : InterpolationType)
    (buffer : List (List ℚ)) (used : List ℕ) (t : ℚ) :
    ℕ → ℕ → ℚ → List (List ℚ) → Option (ℚ × List (List ℚ))
  | 0, _, idx, wout => some (idx, wout)
  | count + 1, n, idx, wout =>
    match channelPass ip itype buffer used (idx + t) n wout with
    | some wout1 => loopFrom ip itype buffer used t count (n + 1) (idx + t) wout1
    | none => none

/-- The guarded inner loop of `SincFixedIn::process`:
`while idx < end_idx as f64 { idx += t_ratio; ...; n += 1 }`.  The guard is
re-checked every iteration; `fuel` only bounds the recursion and is chosen
large enough at the call site (for a positive ratio the loop terminates; a
non-positive ratio would loop forever in the source and is outside every
theorem below). -/
def loopWhile (ip : ScalarInterpolator) (itype : InterpolationType)
    (buffer : List (List ℚ)) (used : List ℕ) (t : ℚ) (endIdx : ℤ) :
    ℕ → ℕ → ℚ → List (List ℚ) → Option (ℕ × ℚ × List (List ℚ))
  | 0, n, idx, wout => some (n, idx, wout)
  | fuel + 1, n, idx, wout =>
    if idx < (endIdx : ℚ) then
      match channelPass ip itype buffer used (idx + t) n wout with
      | some wout1 =>
        loopWhile ip itype buffer used t endIdx fuel (n + 1) (idx + t) wout1
      | none => none
    else some (n, idx, wout)

/- ### The engines -/

/-- `SincFixedIn<T>`. -/
structure SincFixedIn where
  nbr_channels : ℕ
  chunk_size : ℕ
  last_index : ℚ
  resample_ratio : ℚ
  resample_ratio_original : ℚ
  interpolator : ScalarInterpolator
  buffer : List (List ℚ)
  interpolation : InterpolationType
  deriving DecidableEq

/-- `SincFixedOut<T>`. -/
structure SincFixedOut where
  nbr_channels : ℕ
  chunk_size : ℕ
  needed_input_size : ℕ
  last_index : ℚ
  current_buffer_fill : ℕ
  resample_ratio : ℚ
  resample_ratio_original : ℚ
  interpolator : ScalarInterpolator
  buffer : List (List ℚ)
  interpolation : InterpolationType
  used_channels : List ℕ
  deriving DecidableEq

/-- `SincFixedIn::new_with_interpolator`. -/
def SincFixedIn.new_with_interpolator (resample_ratio : ℚ)
    (interpolation_type : InterpolationType) (interpolator : ScalarInterpolator)
    (chunk_size nbr_channels : ℕ) : SincFixedIn :=
  { nbr_channels := nbr_channels
    chunk_size := chunk_size
    last_index := -((interpolator.length / 2 : ℕ) : ℚ)
    resample_ratio := resample_ratio
    resample_ratio_original := resample_ratio
    interpolator := interpolator
    buffer := List.replicate nbr_channels
      (List.replicate (chunk_size + 2 * interpolator.length) 0)
    interpolation := interpolation_type }

/-- `SincFixedOut::new_with_interpolator`.  `needed_input_size` is
`(chunk_size / ratio).ceil() as usize + 2 + sinc_len / 2` (the cast clamps a
negative ceiling at zero). -/
def SincFixedOut.new_with_interpolator (resample_ratio : ℚ)
    (interpolation_type : InterpolationType) (interpolator : ScalarInterpolator)
    (chunk_size nbr_channels : ℕ) : SincFixedOut :=
  let needed_input_size :=
    (⌈(chunk_size : ℚ) / resample_ratio⌉).toNat + 2 + interpolator.length / 2
  { nbr_channels := nbr_channels
    chunk_size := chunk_size
    needed_input_size := needed_input_size
    last_index := -((interpolator.length / 2 : ℕ) : ℚ)
    current_buffer_fill := needed_input_size
    resample_ratio := resample_ratio
    resample_ratio_original := resample_ratio
    interpolator := interpolator
    buffer := List.replicate nbr_channels
      (List.replicate (3 * needed_input_size / 2 + 2 * interpolator.length) 0)
    interpolation := interpolation_type
    used_channels := [] }

/-- The fixed-input engine's output preallocation
`(self.chunk_size as f64 * self.resample_ratio + 10.0) as usize`: the cast
truncates toward zero (and clamps negatives at zero). -/
def allocSize (chunk_size : ℕ) (ratio : ℚ) : ℕ :=
  (⌊(chunk_size : ℚ) * ratio + 10⌋).toNat

/-- `SincFixedIn::process`.  The result pairs the returned
`Result<Vec<Vec<T>>>` with the post-state; `none` is an abort. -/
def SincFixedIn.process (s : SincFixedIn) (wave_in : List (List ℚ)) :
    Option (Except ResampleError (List (List ℚ)) × SincFixedIn) :=
  if wave_in.length ≠ s.nbr_channels then
    some (Except.error
      (ResampleError.WrongNumberOfChannels s.nbr_channels wave_in.length), s)
  else
    match validateChans s.chunk_size 0 wave_in [] with
    | (some e, _) => some (Except.error e, s)
    | (none, used) =>
      let sinc_len := s.interpolator.length
      let t_ratio : ℚ := 1 / s.resample_ratio
      let end_idx : ℤ := (s.chunk_size : ℤ) - ((sinc_len : ℤ) + 1) - ⌈t_ratio⌉
      match slideAll s.chunk_size sinc_len s.buffer with
      | none => none
      | some buf1 =>
        match usedFoldM (fun chan row =>
            if chan < wave_in.length then
              copyRow sinc_len (wave_in.getD chan []) row
            else none) used buf1 with
        | none => none
        | some buf2 =>
          let wave_out0 := (List.range s.nbr_channels).map fun chan =>
            if chan ∈ used then
              List.replicate (allocSize s.chunk_size s.resample_ratio) (0 : ℚ)
            else []
          let fuel := (⌈((end_idx : ℚ) - s.last_index) / t_ratio⌉).toNat + 1
          match loopWhile s.interpolator s.interpolation buf2 used t_ratio
              end_idx fuel 0 s.last_index wave_out0 with
          | none => none
          | some (n, idx, wout) =>
            let wout2 := used.foldl
              (fun wo chan => wo.set chan ((wo.getD chan []).take n)) wout
            some (Except.ok wout2,
              { s with last_index := idx - (s.chunk_size : ℚ), buffer := buf2 })

/-- `SincFixedIn::set_resample_ratio`. -/
def SincFixedIn.set_resample_ratio (s : SincFixedIn) (new_ratio : ℚ) :
    Except ResampleError Unit × SincFixedIn :=
  if new_ratio / s.resample_ratio_original > 9 / 10 ∧
      new_ratio / s.resample_ratio_original < 11 / 10 then
    (Except.ok (), { s with resample_ratio := new_ratio })
  else (Except.error ResampleError.BadRatioUpdate, s)

/-- `SincFixedOut::process_unchecked` (both the owned-output and the
borrowed-output `process` call it after validation). -/
def SincFixedOut.process_unchecked (s : SincFixedOut)
    (wave_in wave_out : List (List ℚ)) :
    Option (SincFixedOut × List (List ℚ)) :=
  let used := s.used_channels
  let sinc_len := s.interpolator.length
  match slideAll s.current_buffer_fill sinc_len s.buffer with
  | none => none
  | some buf1 =>
    let fill1 := s.needed_input_size
    match usedFoldM (fun chan row =>
        if chan < wave_in.length then
          copyRow sinc_len (wave_in.getD chan []) row
        else none) used buf1 with
    | none => none
    | some buf2 =>
      let t_ratio : ℚ := 1 / s.resample_ratio
      match loopFrom s.interpolator s.interpolation buf2 used t_ratio
          s.chunk_size 0 s.last_index wave_out with
      | none => none
      | some (idx, wout) =>
        let last1 := idx - (fill1 : ℚ)
        let nis1 := (⌈last1 + (s.chunk_size : ℚ) / s.resample_ratio +
          (sinc_len : ℚ)⌉).toNat + 2
        some ({ s with
          buffer := buf2
          current_buffer_fill := fill1
          last_index := last1
          needed_input_size := nis1 }, wout)

/-- `<SincFixedOut as Resampler>::process` (owned output). -/
def SincFixedOut.process (s : SincFixedOut) (wave_in : List (List ℚ)) :
    Option (Except ResampleError (List (List ℚ)) × SincFixedOut) :=
  if wave_in.length ≠ s.nbr_channels then
    some (Except.error
      (ResampleError.WrongNumberOfChannels s.nbr_channels wave_in.length), s)
  else
    match validateChans s.needed_input_size 0 wave_in [] with
    | (some e, used) => some (Except.error e, { s with used_channels := used })
    | (none, used) =>
      let s1 := { s with used_channels := used }
      let wave_out := (List.range s.nbr_channels).map fun chan =>
        if chan ∈ used then List.replicate s.chunk_size (0 : ℚ) else []
      match s1.process_unchecked wave_in wave_out with
      | none => none
      | some (s2, wout) => some (Except.ok wout, s2)

/-- `<SincFixedOut as ResamplerFixedOut>::process` (borrowed output).  The
source returns `Option<ResampleError>`; the result triple is that option,
the post-state and the (possibly filled) output buffer. -/
def SincFixedOut.processInto (s : SincFixedOut)
    (wave_in wave_out : List (List ℚ)) :
    Option (Option ResampleError × SincFixedOut × List (List ℚ)) :=
  if wave_in.length ≠ s.nbr_channels then
    some (some
      (ResampleError.WrongNumberOfChannels s.nbr_channels wave_in.length),
      s, wave_out)
  else
    match validateChans s.needed_input_size 0 wave_in [] with
    | (some e, used) =>
      some (some e, { s with used_channels := used }, wave_out)
    | (none, used) =>
      let s1 := { s with used_channels := used }
      if wave_out.length ≠ s.nbr_channels then
        some (some (ResampleError.WrongNumberOfOutputChannels s.nbr_channels
          wave_out.length), s1, wave_out)
      else
        match validateOut s.chunk_size wave_out used with
        | none => none
        | some (some e) => some (some e, s1, wave_out)
        | some none =>
          match s1.process_unchecked wave_in wave_out with
          | none => none
          | some (s2, wout) => some (none, s2, wout)

/-- `SincFixedOut::set_resample_ratio`: on success the ratio is stored and
`needed_input_size` recomputed from the current `last_index`. -/
def SincFixedOut.set_resample_ratio (s : SincFixedOut) (new_ratio : ℚ) :
    Except ResampleError Unit × SincFixedOut :=
  if new_ratio / s.resample_ratio_original > 9 / 10 ∧
      new_ratio / s.resample_ratio_original < 11 / 10 then
    (Except.ok (), { s with
      resample_ratio := new_ratio
      needed_input_size := (⌈s.last_index +
        (s.chunk_size : ℚ) / new_ratio + (s.interpolator.length : ℚ)⌉).toNat + 2 })
  else (Except.error ResampleError.BadRatioUpdate, s)

instance {e a : Type} [DecidableEq e] [DecidableEq a] :
    DecidableEq (Except e a) := fun x y =>
  match x, y with
  | Except.ok u, Except.ok v =>
    if h : u = v then isTrue (by rw [h])
    else isFalse (by intro hc; cases hc; exact h rfl)
  | Except.ok _, Except.error _ => isFalse (fun hc => Except.noConfusion hc)
  | Except.error _, Except.ok _ => isFalse (fun hc => Except.noConfusion hc)
  | Except.error u, Except.error v =>
    if h : u = v then isTrue (by rw [h])
    else isFalse (by intro hc; cases hc; exact h rfl)

/- ### Concrete engines used to instantiate the theorems -/

/-- A concrete fixed-input engine: ratio 1, nearest interpolation, the `ip8`
bank, chunk size 8, two channels. -/
def engFI : SincFixedIn :=
  SincFixedIn.new_with_interpolator 1 InterpolationType.Nearest ip8 8 2

/-- A concrete fixed-output engine: ratio 1, nearest interpolation, the `ip8`
bank, chunk size 4, two channels (its `needed_input_size` is 10). -/
def engFO : SincFixedOut :=
  SincFixedOut.new_with_interpolator 1 InterpolationType.Nearest ip8 4 2

/-- A concrete fixed-output engine with chunk size 1 and one channel (its
`needed_input_size` is 7). -/
def engFO1 : SincFixedOut :=
  SincFixedOut.new_with_interpolator 1 InterpolationType.Nearest ip8 1 1

/-- `engFO` after a call that used both channels. -/
def engFOu : SincFixedOut := { engFO with used_channels := [0, 1] }

/- ### C2: the ratio band -/

theorem band_reject_iff (r r0 : ℚ) (h : 0 < r0) :
    ¬(r / r0 > 9 / 10 ∧ r / r0 < 11 / 10) ↔
      (r ≤ 9 / 10 * r0 ∨ 11 / 10 * r0 ≤ r) := by
  rw [gt_iff_lt, lt_div_iff₀ h, div_lt_iff₀ h, not_and_or, not_lt, not_lt]

/-- C2: for both engines, `set_resample_ratio(r)` returns `BadRatioUpdate`
iff `r ≤ 0.9·r₀` or `r ≥ 1.1·r₀`; on rejection the state (in particular the
ratio) is unchanged, and on success the ratio becomes `r`; the fixed-output
engine also recomputes `needed_input_size` from the new ratio. -/
theorem C2_set_resample_ratio_band (sIn : SincFixedIn) (sOut : SincFixedOut)
    (r : ℚ) (hIn : 0 < sIn.resample_ratio_original)
    (hOut : 0 < sOut.resample_ratio_original) :
    (((sIn.set_resample_ratio r).1
        = Except.error ResampleError.BadRatioUpdate ↔
        (r ≤ 9 / 10 * sIn.resample_ratio_original ∨
          11 / 10 * sIn.resample_ratio_original ≤ r)) ∧
      ((sIn.set_resample_ratio r).1 = Except.error ResampleError.BadRatioUpdate →
        (sIn.set_resample_ratio r).2 = sIn) ∧
      ((sIn.set_resample_ratio r).1 = Except.ok () →
        (sIn.set_resample_ratio r).2.resample_ratio = r)) ∧
    (((sOut.set_resample_ratio r).1
        = Except.error ResampleError.BadRatioUpdate ↔
        (r ≤ 9 / 10 * sOut.resample_ratio_original ∨
          11 / 10 * sOut.resample_ratio_original ≤ r)) ∧
      ((sOut.set_resample_ratio r).1 = Except.error ResampleError.BadRatioUpdate →
        (sOut.set_resample_ratio r).2 = sOut) ∧
      ((sOut.set_resample_ratio r).1 = Except.ok () →
        (sOut.set_resample_ratio r).2.resample_ratio = r ∧
          (sOut.set_resample_ratio r).2.needed_input_size
            = (⌈sOut.last_index + (sOut.chunk_size : ℚ) / r +
                (sOut.interpolator.length : ℚ)⌉).toNat + 2)) := by
  constructor
  · unfold SincFixedIn.set_resample_ratio
    split_ifs with hc
    · refine ⟨?_, ?_, ?_⟩
      · simp only [false_iff]
        · intro hband
          exact (band_reject_iff r _ hIn).mpr hband hc
      · intro h; cases h
      · intro _; rfl
    · refine ⟨?_, ?_, ?_⟩
      · simp only [true_iff]
        exact (band_reject_iff r _ hIn).mp hc
      · intro _; rfl
      · intro h; cases h
  · unfold SincFixedOut.set_resample_ratio
    split_ifs with hc
    · refine ⟨?_, ?_, ?_⟩
      · simp only [false_iff]
        · intro hband
          exact (band_reject_iff r _ hOut).mpr hband hc
      · intro h; cases h
      · intro _; exact ⟨rfl, rfl⟩
    · refine ⟨?_, ?_, ?_⟩
      · simp only [true_iff]
        exact (band_reject_iff r _ hOut).mp hc
      · intro _; rfl
      · intro h; cases h

/-- C2 witness: the theorem applied to the concrete engines at ratio 1. -/
theorem C2_set_resample_ratio_band_witness :
    (0 : ℚ) < engFI.resample_ratio_original ∧
      (0 : ℚ) < engFO.resample_ratio_original ∧
      ((engFI.set_resample_ratio 1).1 = Except.ok () →
        (engFI.set_resample_ratio 1).2.resample_ratio = 1) :=
  ⟨by with_unfolding_all decide, by with_unfolding_all decide,
    (C2_set_resample_ratio_band engFI engFO 1 (by with_unfolding_all decide)
      (by with_unfolding_all decide)).1.2.2⟩

/- ### C10: the fixed-input ratio update touches only the ratio field -/

/-- C10: on a successful ratio update the fixed-input engine changes only
`resample_ratio`; every other field is unchanged. -/
theorem C10_set_ratio_frame (s : SincFixedIn) (r : ℚ)
    (h : (s.set_resample_ratio r).1 = Except.ok ()) :
    (s.set_resample_ratio r).2.resample_ratio = r ∧
    (s.set_resample_ratio r).2.buffer = s.buffer ∧
    (s.set_resample_ratio r).2.last_index = s.last_index ∧
    (s.set_resample_ratio r).2.chunk_size = s.chunk_size ∧
    (s.set_resample_ratio r).2.nbr_channels = s.nbr_channels ∧
    (s.set_resample_ratio r).2.resample_ratio_original
      = s.resample_ratio_original ∧
    (s.set_resample_ratio r).2.interpolation = s.interpolation ∧
    (s.set_resample_ratio r).2.interpolator = s.interpolator := by
  unfold SincFixedIn.set_resample_ratio at h ⊢
  split_ifs at h ⊢
  exact ⟨rfl, rfl, rfl, rfl, rfl, rfl, rfl, rfl⟩

/-- C10 witness. -/
theorem C10_set_ratio_frame_witness :
    (engFI.set_resample_ratio 1).1 = Except.ok () ∧
      (engFI.set_resample_ratio 1).2.resample_ratio = 1 ∧
      (engFI.set_resample_ratio 1).2.buffer = engFI.buffer :=
  ⟨by with_unfolding_all decide,
    (C10_set_ratio_frame engFI 1 (by with_unfolding_all decide)).1,
    (C10_set_ratio_frame engFI 1 (by with_unfolding_all decide)).2.1⟩

/- ### C5: what error returns do to the state -/

/-- Equality of every `SincFixedOut` field except the `used_channels`
scratch list. -/
def SincFixedOut.agreesExceptUsed (a b : SincFixedOut) : Prop :=
  a.nbr_channels = b.nbr_channels ∧ a.chunk_size = b.chunk_size ∧
  a.needed_input_size = b.needed_input_size ∧ a.last_index = b.last_index ∧
  a.current_buffer_fill = b.current_buffer_fill ∧
  a.resample_ratio = b.resample_ratio ∧
  a.resample_ratio_original = b.resample_ratio_original ∧
  a.interpolator = b.interpolator ∧ a.buffer = b.buffer ∧
  a.interpolation = b.interpolation

theorem SincFixedIn.process_error_state (s : SincFixedIn)
    (win : List (List ℚ)) (e : ResampleError) (s' : SincFixedIn)
    (h : s.process win = some (Except.error e, s')) : s' = s := by
  unfold SincFixedIn.process at h
  split at h
  · simp only [Option.some.injEq, Prod.mk.injEq] at h
    exact h.2.symm
  · split at h
    · simp only [Option.some.injEq, Prod.mk.injEq] at h
      exact h.2.symm
    · dsimp only at h
      split at h
      · exact Option.noConfusion h
      · split at h
        · exact Option.noConfusion h
        · split at h
          · exact Option.noConfusion h
          · simp only [Option.some.injEq, Prod.mk.injEq] at h
            exact absurd h.1 (by simp)

theorem fixedOut_process_error_state (s : SincFixedOut)
    (win : List (List ℚ)) (e : ResampleError) (s' : SincFixedOut)
    (h : s.process win = some (Except.error e, s')) :
    s'.agreesExceptUsed s := by
  unfold SincFixedOut.process at h
  split at h
  · simp only [Option.some.injEq, Prod.mk.injEq] at h
    rw [← h.2]
    exact ⟨rfl, rfl, rfl, rfl, rfl, rfl, rfl, rfl, rfl, rfl⟩
  · split at h
    · simp only [Option.some.injEq, Prod.mk.injEq] at h
      rw [← h.2]
      exact ⟨rfl, rfl, rfl, rfl, rfl, rfl, rfl, rfl, rfl, rfl⟩
    · dsimp only at h
      split at h
      · exact Option.noConfusion h
      · simp only [Option.some.injEq, Prod.mk.injEq] at h
        exact absurd h.1 (by simp)

theorem SincFixedOut.processInto_error_state (s : SincFixedOut)
    (win wout : List (List ℚ)) (e : ResampleError) (s' : SincFixedOut)
    (w' : List (List ℚ))
    (h : s.processInto win wout = some (some e, s', w')) :
    s'.agreesExceptUsed s ∧ w' = wout := by
  unfold SincFixedOut.processInto at h
  split at h
  · simp only [Option.some.injEq, Prod.mk.injEq] at h
    rw [← h.2.1, ← h.2.2]
    exact ⟨⟨rfl, rfl, rfl, rfl, rfl, rfl, rfl, rfl, rfl, rfl⟩, rfl⟩
  · split at h
    · simp only [Option.some.injEq, Prod.mk.injEq] at h
      rw [← h.2.1, ← h.2.2]
      exact ⟨⟨rfl, rfl, rfl, rfl, rfl, rfl, rfl, rfl, rfl, rfl⟩, rfl⟩
    · split at h
      · simp only [Option.some.injEq, Prod.mk.injEq] at h
        rw [← h.2.1, ← h.2.2]
        exact ⟨⟨rfl, rfl, rfl, rfl, rfl, rfl, rfl, rfl, rfl, rfl⟩, rfl⟩
      · dsimp only at h
        split at h
        · exact Option.noConfusion h
        · simp only [Option.some.injEq, Prod.mk.injEq] at h
          rw [← h.2.1, ← h.2.2]
          exact ⟨⟨rfl, rfl, rfl, rfl, rfl, rfl, rfl, rfl, rfl, rfl⟩, rfl⟩
        · split at h
          · exact Option.noConfusion h
          · simp only [Option.some.injEq, Prod.mk.injEq] at h
            exact absurd h.1 (by simp)

/-- C5 (amended): an error return from the fixed-input `process` leaves the
engine exactly unchanged; an error return from either fixed-output `process`
leaves every field except the `used_channels` scratch list unchanged (and
leaves the caller's output buffer untouched), but `used_channels` itself may
change: it is cleared and partially refilled before the shape checks
complete. -/
theorem C5_error_state (sIn : SincFixedIn) (winIn : List (List ℚ))
    (e1 : ResampleError) (sIn' : SincFixedIn)
    (h1 : sIn.process winIn = some (Except.error e1, sIn'))
    (sOut : SincFixedOut) (winOut : List (List ℚ)) (e2 : ResampleError)
    (sOut' : SincFixedOut)
    (h2 : sOut.process winOut = some (Except.error e2, sOut'))
    (sB : SincFixedOut) (winB woutB : List (List ℚ)) (e3 : ResampleError)
    (sB' : SincFixedOut) (wB' : List (List ℚ))
    (h3 : sB.processInto winB woutB = some (some e3, sB', wB')) :
    sIn' = sIn ∧ sOut'.agreesExceptUsed sOut ∧
      sB'.agreesExceptUsed sB ∧ wB' = woutB :=
  ⟨SincFixedIn.process_error_state sIn winIn e1 sIn' h1,
    fixedOut_process_error_state sOut winOut e2 sOut' h2,
    (SincFixedOut.processInto_error_state sB winB woutB e3 sB' wB' h3).1,
    (SincFixedOut.processInto_error_state sB winB woutB e3 sB' wB' h3).2⟩

/-- C5 witness: three concrete error invocations. -/
theorem C5_error_state_witness :
    engFI.process [] = some (Except.error
      (ResampleError.WrongNumberOfChannels 2 0), engFI) ∧
    (engFI = engFI ∧
      ({ engFOu with used_channels := [1] }).agreesExceptUsed engFOu ∧
      ({ engFOu with used_channels := [0, 1] }).agreesExceptUsed engFOu ∧
      ([] : List (List ℚ)) = []) :=
  ⟨by with_unfolding_all decide,
    C5_error_state engFI [] (ResampleError.WrongNumberOfChannels 2 0) engFI
      (by with_unfolding_all decide)
      engFOu [[], [1]] (ResampleError.WrongNumberOfFrames 1 10 1)
      { engFOu with used_channels := [1] }
      (by with_unfolding_all decide)
      engFOu [List.replicate 10 1, List.replicate 10 1] []
      (ResampleError.WrongNumberOfOutputChannels 2 0)
      { engFOu with used_channels := [0, 1] } []
      (by with_unfolding_all decide)⟩

/-- C5 counterexample: the claim says an error return changes no field at
all, but a frame-count error from the fixed-output `process` rewrites the
`used_channels` field (here from `[0, 1]` to `[1]`). -/
theorem C5_counterexample :
    engFOu.process [[], [1]] = some (Except.error
      (ResampleError.WrongNumberOfFrames 1 10 1),
      { engFOu with used_channels := [1] }) ∧
    { engFOu with used_channels := [1] } ≠ engFOu := by
  with_unfolding_all decide

/- ### C4: the needed_input_size recompute -/

/-- C4 (amended): after every successful fixed-output `process`, the
published `needed_input_size` equals
`max(⌈last_index + chunk_size/ratio + L⌉, 0) + 2` where `last_index` is the
cursor stored by that same call — the ceiling is clamped at zero by the
`as usize` cast before the `+ 2`. -/
theorem C4_needed_input_size (s : SincFixedOut) (win out : List (List ℚ))
    (s' : SincFixedOut) (h : s.process win = some (Except.ok out, s')) :
    (s'.needed_input_size : ℤ)
      = max ⌈s'.last_index + (s'.chunk_size : ℚ) / s'.resample_ratio +
          (s'.interpolator.length : ℚ)⌉ 0 + 2 := by
  unfold SincFixedOut.process at h
  split at h
  · simp only [Option.some.injEq, Prod.mk.injEq] at h
    exact absurd h.1 (by simp)
  · split at h
    · simp only [Option.some.injEq, Prod.mk.injEq] at h
      exact absurd h.1 (by simp)
    · dsimp only at h
      unfold SincFixedOut.process_unchecked at h
      dsimp only at h
      split at h
      · exact Option.noConfusion h
      · rename_i s2 wout2 heq
        simp only [Option.some.injEq, Prod.mk.injEq] at h
        obtain ⟨-, hs⟩ := h
        subst hs
        split at heq
        · exact Option.noConfusion heq
        · split at heq
          · exact Option.noConfusion heq
          · split at heq
            · exact Option.noConfusion heq
            · simp only [Option.some.injEq, Prod.mk.injEq] at heq
              obtain ⟨hrec, -⟩ := heq
              subst hrec
              push_cast [Int.toNat_eq_max]
              ring

/-- C4 witness: the amended theorem applied to a concrete successful call on
`engFO1`. -/
theorem C4_needed_input_size_witness :
    engFO1.process [List.replicate 7 1] = some (Except.ok [[5]],
      { engFO1 with
        buffer := [List.replicate 16 0 ++ List.replicate 7 1 ++
          List.replicate 3 0]
        last_index := -10
        needed_input_size := 2
        current_buffer_fill := 7
        used_channels := [0] }) ∧
    (({ engFO1 with
        buffer := [List.replicate 16 0 ++ List.replicate 7 1 ++
          List.replicate 3 0]
        last_index := -10
        needed_input_size := 2
        current_buffer_fill := 7
        used_channels := [0] } : SincFixedOut).needed_input_size : ℤ)
      = max ⌈(-10 : ℚ) + (1 : ℚ) / 1 + (8 : ℚ)⌉ 0 + 2 :=
  ⟨by with_unfolding_all decide,
    C4_needed_input_size engFO1 [List.replicate 7 1] [[5]] _
      (by with_unfolding_all decide)⟩

/-- C4 counterexample: on this successful call the stored cursor is −10, the
claim's formula `⌈last_index + chunk_size/ratio + L⌉ + 2 = ⌈−1⌉ + 2 = 1`,
but the code publishes 2 (the negative ceiling is clamped at zero by the
`as usize` cast). -/
theorem C4_clamp_counterexample :
    (engFO1.process [List.replicate 7 1]).map (fun r =>
        match r.1 with
        | Except.ok _ => true
        | Except.error _ => false) = some true ∧
    (engFO1.process [List.replicate 7 1]).map (fun r =>
        ((r.2.needed_input_size : ℤ),
          ⌈r.2.last_index + (r.2.chunk_size : ℚ) / r.2.resample_ratio +
            (r.2.interpolator.length : ℚ)⌉ + 2)) = some (2, 1) ∧
    (2 : ℤ) ≠ 1 := by
  with_unfolding_all decide

/- ### Validation lemmas -/

theorem validateChans_ok (e : ℕ) (waves : List (List ℚ))
    (h : ∀ w ∈ waves, w ≠ [] → w.length = e) :
    ∀ c u, validateChans e c waves u = (none, u ++ (usedIdx waves).map (· + c)) := by
  induction waves with
  | nil => intro c u; simp [validateChans, usedIdx]
  | cons w rest ih =>
    intro c u
    by_cases hw : w = []
    · rw [validateChans, if_pos hw,
        ih (fun x hx => h x (List.mem_cons_of_mem _ hx) ) (c + 1) u]
      rw [usedIdx, if_pos hw, List.map_map]
      have hfe : ((· + c) ∘ (· + 1) : ℕ → ℕ) = (· + (c + 1)) := by
        funext x; simp; omega
      rw [hfe]
    · have hwl : w.length = e := h w (List.mem_cons_self _ _) hw
      rw [validateChans, if_neg hw, if_neg (by omega),
        ih (fun x hx => h x (List.mem_cons_of_mem _ hx)) (c + 1) (u ++ [c])]
      rw [usedIdx, if_neg hw]
      simp [List.map_map]
      intro a _
      omega

theorem mem_succ_map (l : List ℕ) (d : ℕ) :
    (d + 1) ∈ l.map (· + 1) ↔ d ∈ l := by
  simp only [List.mem_map]
  constructor
  · rintro ⟨x, hx, hxd⟩
    have hxe : x = d := by omega
    rwa [hxe] at hx
  · intro hd
    exact ⟨d, hd, rfl⟩

theorem mem_usedIdx (waves : List (List ℚ)) (d : ℕ) :
    d ∈ usedIdx waves ↔ d < waves.length ∧ waves.getD d [] ≠ [] := by
  induction waves generalizing d with
  | nil => simp [usedIdx]
  | cons w rest ih =>
    cases d with
    | zero =>
      by_cases hw : w = [] <;>
        simp [usedIdx, hw, List.getD_cons_zero, Nat.succ_pos]
    | succ d2 =>
      have hstep : (d2 + 1) ∈ usedIdx (w :: rest) ↔ d2 ∈ usedIdx rest := by
        rw [usedIdx]
        by_cases hw : w = []
        · rw [if_pos hw, mem_succ_map]
        · rw [if_neg hw, List.mem_cons]
          rw [mem_succ_map]
          simp
      rw [hstep, ih d2, List.getD_cons_succ, List.length_cons]
      constructor
      · rintro ⟨h1, h2⟩
        exact ⟨by omega, h2⟩
      · rintro ⟨h1, h2⟩
        exact ⟨by omega, h2⟩

theorem usedIdx_nodup (waves : List (List ℚ)) : (usedIdx waves).Nodup := by
  induction waves with
  | nil => simp [usedIdx]
  | cons w rest ih =>
    rw [usedIdx]
    have hmap : ((usedIdx rest).map (· + 1)).Nodup :=
      ih.map (fun a b hab => by omega)
    by_cases hw : w = []
    · rw [if_pos hw]; exact hmap
    · rw [if_neg hw]
      refine List.Nodup.cons ?_ hmap
      intro hc
      obtain ⟨x, -, hx⟩ := List.mem_map.mp hc
      omega

theorem validateOut_spec (chunk : ℕ) (wout : List (List ℚ)) :
    ∀ used : List ℕ, (∀ chan ∈ used, chan < wout.length) →
      (validateOut chunk wout used = some none ↔
        ∀ chan ∈ used, (wout.getD chan []).length = chunk) ∧
      ((∃ ch ac, validateOut chunk wout used
          = some (some (ResampleError.WrongNumberOfOutputFrames ch chunk ac))) ↔
        ∃ chan ∈ used, (wout.getD chan []).length ≠ chunk) ∧
      validateOut chunk wout used ≠ none := by
  intro used
  induction used with
  | nil =>
    intro _
    refine ⟨by simp [validateOut], ?_, by simp [validateOut]⟩
    simp [validateOut]
  | cons chan rest ih =>
    intro hall
    have hch : chan < wout.length := hall chan (List.mem_cons_self _ _)
    have hrest := ih (fun x hx => hall x (List.mem_cons_of_mem _ hx))
    rw [validateOut, if_pos hch]
    by_cases hlen : (wout.getD chan []).length ≠ chunk
    · rw [if_pos hlen]
      refine ⟨?_, ?_, by simp⟩
      · constructor
        · intro hc
          simp at hc
        · intro hall2
          exact absurd (hall2 chan (List.mem_cons_self _ _)) hlen
      constructor
      · intro _
        exact ⟨chan, List.mem_cons_self _ _, hlen⟩
      · intro _
        exact ⟨chan, (wout.getD chan []).length, rfl⟩
    · rw [if_neg hlen]
      push_neg at hlen
      refine ⟨?_, ?_, hrest.2.2⟩
      · rw [hrest.1]
        constructor
        · intro hr x hx
          rcases List.mem_cons.mp hx with rfl | hx'
          · exact hlen
          · exact hr x hx'
        · intro hr x hx
          exact hr x (List.mem_cons_of_mem _ hx)
      · rw [hrest.2.1]
        constructor
        · rintro ⟨x, hx, hxl⟩
          exact ⟨x, List.mem_cons_of_mem _ hx, hxl⟩
        · rintro ⟨x, hx, hxl⟩
          rcases List.mem_cons.mp hx with rfl | hx'
          · exact absurd hlen hxl
          · exact ⟨x, hx', hxl⟩

/-- With valid input shapes, the borrowed-output `process` with a wrong
output channel count returns exactly `WrongNumberOfOutputChannels`. -/
theorem processInto_shape (s : SincFixedOut) (win wout : List (List ℚ))
    (hlen : win.length = s.nbr_channels)
    (hrows : ∀ w ∈ win, w ≠ [] → w.length = s.needed_input_size) :
    s.processInto win wout =
      if wout.length ≠ s.nbr_channels then
        some (some (ResampleError.WrongNumberOfOutputChannels s.nbr_channels
          wout.length), { s with used_channels := usedIdx win }, wout)
      else
        match validateOut s.chunk_size wout (usedIdx win) with
        | none => none
        | some (some e) =>
          some (some e, { s with used_channels := usedIdx win }, wout)
        | some none =>
          match ({ s with used_channels := usedIdx win }).process_unchecked
              win wout with
          | none => none
          | some (s2, w2) => some (none, s2, w2) := by
  unfold SincFixedOut.processInto
  rw [if_neg (by omega)]
  have hv : validateChans s.needed_input_size 0 win []
      = (none, usedIdx win) := by
    rw [validateChans_ok s.needed_input_size win hrows 0 []]
    simp
  rw [hv]

theorem validateOut_err_shape (chunk : ℕ) (wout : List (List ℚ)) :
    ∀ (used : List ℕ) (e : ResampleError),
      validateOut chunk wout used = some (some e) →
      ∃ ch ac, e = ResampleError.WrongNumberOfOutputFrames ch chunk ac := by
  intro used
  induction used with
  | nil =>
    intro e h
    simp [validateOut] at h
  | cons chan rest ih =>
    intro e h
    rw [validateOut] at h
    split_ifs at h with h1 h2
    · simp only [Option.some.injEq] at h
      exact ⟨chan, (wout.getD chan []).length, h.symm⟩
    · exact ih e h

/-- C6 (amended): with valid input shapes, the borrowed-output `process`
returns `WrongNumberOfOutputChannels` exactly when the output row count
differs from C; it returns a `WrongNumberOfOutputFrames` error exactly when
some channel with non-empty input has an output row whose length differs
from `chunk_size`.  Output rows of channels whose input row is empty are
not length-checked (only their existence is, through the row count). -/
theorem C6_output_validation (s : SincFixedOut) (win wout : List (List ℚ))
    (hlen : win.length = s.nbr_channels)
    (hrows : ∀ w ∈ win, w ≠ [] → w.length = s.needed_input_size) :
    ((s.processInto win wout).map (fun r => r.1)
        = some (some (ResampleError.WrongNumberOfOutputChannels
            s.nbr_channels wout.length))
      ↔ wout.length ≠ s.nbr_channels) ∧
    (wout.length = s.nbr_channels →
      ((∃ ch ac, (s.processInto win wout).map (fun r => r.1)
          = some (some (ResampleError.WrongNumberOfOutputFrames ch
              s.chunk_size ac)))
        ↔ ∃ chan ∈ usedIdx win, (wout.getD chan []).length ≠ s.chunk_size)) := by
  rw [processInto_shape s win wout hlen hrows]
  by_cases hwl : wout.length = s.nbr_channels
  · rw [if_neg (by omega)]
    have hall : ∀ chan ∈ usedIdx win, chan < wout.length := by
      intro chan hc
      have := (mem_usedIdx win chan).mp hc
      omega
    obtain ⟨hv1, hv2, hv3⟩ := validateOut_spec s.chunk_size wout (usedIdx win) hall
    constructor
    · constructor
      · intro hc
        rcases hvo : validateOut s.chunk_size wout (usedIdx win) with _ | o
        · exact absurd hvo hv3
        · rcases o with _ | e
          · rw [hvo] at hc
            dsimp only at hc
            rcases hpu : ({ s with used_channels := usedIdx win
              } : SincFixedOut).process_unchecked win wout with _ | ⟨s2, w2⟩ <;>
              rw [hpu] at hc <;> simp at hc
          · obtain ⟨ch, ac, hsh⟩ := validateOut_err_shape s.chunk_size wout
              (usedIdx win) e hvo
            rw [hvo, hsh] at hc
            simp at hc
      · intro hne
        exact absurd hwl hne
    · intro _
      constructor
      · rintro ⟨ch, ac, hc⟩
        rcases hvo : validateOut s.chunk_size wout (usedIdx win) with _ | o
        · exact absurd hvo hv3
        · rcases o with _ | e
          · rw [hvo] at hc
            dsimp only at hc
            rcases hpu : ({ s with used_channels := usedIdx win
              } : SincFixedOut).process_unchecked win wout with _ | ⟨s2, w2⟩ <;>
              rw [hpu] at hc <;> simp at hc
          · obtain ⟨ch2, ac2, hsh⟩ := validateOut_err_shape s.chunk_size wout
              (usedIdx win) e hvo
            refine hv2.mp ⟨ch2, ac2, ?_⟩
            rw [hvo, hsh]
      · intro hex
        obtain ⟨ch, ac, hvo⟩ := hv2.mpr hex
        refine ⟨ch, ac, ?_⟩
        rw [hvo]
        rfl
  · rw [if_pos hwl]
    refine ⟨⟨fun _ => hwl, fun _ => rfl⟩, fun hc => absurd hc hwl⟩

/-- C6 witness: the amended theorem applied at a concrete engine, input and
output buffer. -/
theorem C6_output_validation_witness :
    ([List.replicate 10 (1 : ℚ), []].length = engFO.nbr_channels) ∧
      ((engFO.processInto [List.replicate 10 (1 : ℚ), []]
          [List.replicate 4 0, []]).map (fun r => r.1)
        = some (some (ResampleError.WrongNumberOfOutputChannels
            engFO.nbr_channels
            ([List.replicate 4 (0 : ℚ), []] : List (List ℚ)).length))
      ↔ ([List.replicate 4 (0 : ℚ), []] : List (List ℚ)).length
          ≠ engFO.nbr_channels) :=
  ⟨by with_unfolding_all decide,
    (C6_output_validation engFO [List.replicate 10 (1 : ℚ), []]
      [List.replicate 4 0, []] (by with_unfolding_all decide)
      (by with_unfolding_all decide)).1⟩

/-- C6 counterexample: channel 1's input row is empty and its output row has
length 0 ≠ chunk_size, yet the call succeeds (`r.1 = none`) instead of
returning `WrongNumberOfOutputFrames` as the claim requires. -/
theorem C6_empty_row_counterexample :
    (engFO.processInto [List.replicate 10 (1 : ℚ), []]
        [List.replicate 4 0, []]).map (fun r => r.1) = some none ∧
      (([] : List ℚ)).length ≠ engFO.chunk_size := by
  with_unfolding_all decide

/- ### Bounds for the nearest-phase helpers -/

/-- How far above `⌊idx⌋` the base index of a neighbour may lie, per
interpolation type (cubic's second successor can carry twice only when
`K = 1`). -/
def upMargin : InterpolationType → ℕ → ℤ
  | InterpolationType.Cubic, K => if K = 1 then 2 else 1
  | InterpolationType.Linear, _ => 1
  | InterpolationType.Nearest, _ => 0

theorem get_nearest_time_bounds (idx : ℚ) (K : ℤ) (hK : 0 < K) :
    (get_nearest_time idx K).1 = ⌊idx⌋ ∧
      0 ≤ (get_nearest_time idx K).2 ∧ (get_nearest_time idx K).2 < K := by
  have hfr0 : (0 : ℚ) ≤ idx - ⌊idx⌋ := by
    have := Int.floor_le idx
    linarith
  have hfr1 : idx - ⌊idx⌋ < 1 := by
    have := Int.lt_floor_add_one idx
    linarith
  have hKq : (0 : ℚ) < (K : ℚ) := by exact_mod_cast hK
  refine ⟨rfl, ?_, ?_⟩
  · exact Int.floor_nonneg.mpr (mul_nonneg hfr0 (le_of_lt hKq))
  · rw [get_nearest_time]
    apply Int.floor_lt.mpr
    calc (idx - ⌊idx⌋) * (K : ℚ) < 1 * (K : ℚ) :=
          mul_lt_mul_of_pos_right hfr1 hKq
      _ = (K : ℚ) := one_mul _

theorem nkSucc_bounds (K : ℤ) (nk : ℤ × ℤ) (hk0 : 0 ≤ nk.2) (hkK : nk.2 < K) :
    nk.1 ≤ (nkSucc K nk).1 ∧ (nkSucc K nk).1 ≤ nk.1 + 1 ∧
      0 ≤ (nkSucc K nk).2 ∧ (nkSucc K nk).2 < K ∧
      ((nkSucc K nk).1 = nk.1 + 1 → (nkSucc K nk).2 = nk.2 + 1 - K) := by
  rw [nkSucc]
  split_ifs with h
  · exact ⟨by omega, by omega, by omega, by omega, by omega⟩
  · exact ⟨by omega, by omega, by omega, by omega, by omega⟩

theorem nkPred_bounds (K : ℤ) (nk : ℤ × ℤ) (hK : 0 < K) (hk0 : 0 ≤ nk.2)
    (hkK : nk.2 < K) :
    nk.1 - 1 ≤ (nkPred K nk).1 ∧ (nkPred K nk).1 ≤ nk.1 ∧
      0 ≤ (nkPred K nk).2 ∧ (nkPred K nk).2 < K := by
  rw [nkPred]
  split_ifs with h
  · exact ⟨by omega, by omega, by omega, by omega⟩
  · exact ⟨by omega, by omega, by omega, by omega⟩

theorem mem_times2_bounds (idx : ℚ) (K : ℤ) (hK : 0 < K) :
    ∀ p ∈ get_nearest_times_2 idx K,
      ⌊idx⌋ ≤ p.1 ∧ p.1 ≤ ⌊idx⌋ + 1 ∧ 0 ≤ p.2 ∧ p.2 < K := by
  obtain ⟨hp1, hp2, hp3⟩ := get_nearest_time_bounds idx K hK
  obtain ⟨hs1, hs2, hs3, hs4, -⟩ :=
    nkSucc_bounds K (get_nearest_time idx K) hp2 hp3
  intro p hp
  simp only [get_nearest_times_2, List.mem_cons, List.not_mem_nil,
    or_false] at hp
  rcases hp with rfl | rfl
  · exact ⟨le_of_eq hp1.symm, by omega, hp2, hp3⟩
  · exact ⟨by omega, by omega, hs3, hs4⟩

theorem mem_times4_bounds (idx : ℚ) (K : ℤ) (hK : 0 < K) :
    ∀ p ∈ get_nearest_times_4 idx K,
      ⌊idx⌋ - 1 ≤ p.1 ∧ p.1 ≤ ⌊idx⌋ + (if K = 1 then 2 else 1) ∧
        0 ≤ p.2 ∧ p.2 < K := by
  obtain ⟨hp1, hp2, hp3⟩ := get_nearest_time_bounds idx K hK
  obtain ⟨hq1, hq2, hq3, hq4⟩ := nkPred_bounds K (get_nearest_time idx K) hK hp2 hp3
  obtain ⟨hs1, hs2, hs3, hs4, hs5⟩ :=
    nkSucc_bounds K (get_nearest_time idx K) hp2 hp3
  obtain ⟨ht1, ht2, ht3, ht4, -⟩ :=
    nkSucc_bounds K (nkSucc K (get_nearest_time idx K)) hs3 hs4
  have hKcase : (nkSucc K (nkSucc K (get_nearest_time idx K))).1
      ≤ ⌊idx⌋ + (if K = 1 then 2 else 1) := by
    by_cases hK1 : K = 1
    · rw [if_pos hK1]
      omega
    · rw [if_neg hK1]
      by_cases hcarry : (nkSucc K (get_nearest_time idx K)).1
          = (get_nearest_time idx K).1 + 1
      · have := hs5 hcarry
        rw [nkSucc]
        rw [if_neg (by omega)]
        omega
      · omega
  intro p hp
  have hup : (0 : ℤ) ≤ if K = 1 then 2 else 1 := by
    split_ifs <;> omega
  simp only [get_nearest_times_4, List.mem_cons, List.not_mem_nil,
    or_false] at hp
  rcases hp with rfl | rfl | rfl | rfl
  · exact ⟨by omega, by omega, hq3, hq4⟩
  · exact ⟨by omega, by omega, hp2, hp3⟩
  · exact ⟨by omega, by omega, hs3, hs4⟩
  · exact ⟨by omega, hKcase, ht3, ht4⟩

/- ### Totality of the per-sample computation under engine invariants -/

theorem interpAt_isSome (ip : ScalarInterpolator) (buf : List ℚ) (nk : ℤ × ℤ)
    (hwf : ip.Wf) (hn0 : 0 ≤ nk.1 + 2 * (ip.length : ℤ))
    (hn1 : nk.1 + 2 * (ip.length : ℤ) + (ip.length : ℤ) < (buf.length : ℤ))
    (hk0 : 0 ≤ nk.2) (hkK : nk.2 < (ip.nbr_sincs : ℤ)) :
    ∃ v, interpAt ip buf nk = some v := by
  rw [interpAt, if_pos ⟨hn0, hk0⟩]
  have hidx : (nk.1 + 2 * (ip.length : ℤ)).toNat + ip.length < buf.length := by
    omega
  have hsub : nk.2.toNat < ip.nbr_sincs := by omega
  exact ⟨_, get_sinc_interpolated_eq_sum ip buf _ _ hwf hidx hsub⟩

theorem pointsAt_isSome (ip : ScalarInterpolator) (buf : List ℚ) :
    ∀ l : List (ℤ × ℤ), (∀ p ∈ l, ∃ v, interpAt ip buf p = some v) →
      ∃ vs, pointsAt ip buf l = some vs := by
  intro l
  induction l with
  | nil => intro _; exact ⟨[], rfl⟩
  | cons nk rest ih =>
    intro h
    obtain ⟨v, hv⟩ := h nk (List.mem_cons_self _ _)
    obtain ⟨vs, hvs⟩ := ih (fun p hp => h p (List.mem_cons_of_mem _ hp))
    exact ⟨v :: vs, by rw [pointsAt, hv, hvs]⟩

theorem calcSample_isSome (ip : ScalarInterpolator) (itype : InterpolationType)
    (buf : List ℚ) (idx : ℚ) (hwf : ip.Wf) (hK : 0 < ip.nbr_sincs)
    (hlow : 0 ≤ ⌊idx⌋ - 1 + 2 * (ip.length : ℤ))
    (hhigh : ⌊idx⌋ + upMargin itype ip.nbr_sincs + 3 * (ip.length : ℤ)
      < (buf.length : ℤ)) :
    ∃ v, calcSample ip itype buf idx = some v := by
  have hKz : (0 : ℤ) < (ip.nbr_sincs : ℤ) := by exact_mod_cast hK
  cases itype with
  | Nearest =>
    obtain ⟨he, hk0, hkK⟩ := get_nearest_time_bounds idx (ip.nbr_sincs : ℤ) hKz
    rw [calcSample]
    apply interpAt_isSome ip buf _ hwf
    · rw [he]; omega
    · rw [he]
      have : upMargin InterpolationType.Nearest ip.nbr_sincs = 0 := rfl
      omega
    · exact hk0
    · exact hkK
  | Linear =>
    have hb := mem_times2_bounds idx (ip.nbr_sincs : ℤ) hKz
    have hup : upMargin InterpolationType.Linear ip.nbr_sincs = 1 := rfl
    obtain ⟨vs, hvs⟩ := pointsAt_isSome ip buf _ (fun p hp => by
      obtain ⟨h1, h2, h3, h4⟩ := hb p hp
      exact interpAt_isSome ip buf p hwf (by omega) (by omega) h3 h4)
    rw [calcSample]
    rw [hvs]
    exact ⟨_, rfl⟩
  | Cubic =>
    have hb := mem_times4_bounds idx (ip.nbr_sincs : ℤ) hKz
    have hup : upMargin InterpolationType.Cubic ip.nbr_sincs
        = if ip.nbr_sincs = 1 then 2 else 1 := rfl
    obtain ⟨vs, hvs⟩ := pointsAt_isSome ip buf _ (fun p hp => by
      obtain ⟨h1, h2, h3, h4⟩ := hb p hp
      refine interpAt_isSome ip buf p hwf (by omega) ?_ h3 h4
      have hsplit : ((if ((ip.nbr_sincs : ℤ)) = 1 then (2:ℤ) else 1))
          = if ip.nbr_sincs = 1 then 2 else 1 := by
        by_cases h5 : ip.nbr_sincs = 1
        · rw [if_pos h5, if_pos (by exact_mod_cast h5)]
        · rw [if_neg (by exact_mod_cast h5), if_neg h5]
      rw [hsplit] at h2
      omega)
    rw [calcSample]
    rw [hvs]
    exact ⟨_, rfl⟩

/- ### The used-channel fold: totality, frame and two-run transfer -/

theorem usedFoldM_spec (g : ℕ → List ℚ → Option (List ℚ)) :
    ∀ (used : List ℕ) (rows : List (List ℚ)), used.Nodup →
      (∀ chan ∈ used, chan < rows.length ∧
        ∃ r, g chan (rows.getD chan []) = some r) →
      ∃ rows', usedFoldM g used rows = some rows' ∧
        rows'.length = rows.length ∧
        (∀ d, d ∉ used → rows'.getD d [] = rows.getD d []) ∧
        (∀ d ∈ used, g d (rows.getD d []) = some (rows'.getD d [])) := by
  intro used
  induction used with
  | nil =>
    intro rows _ _
    exact ⟨rows, rfl, rfl, fun d _ => rfl, fun d hd => absurd hd (by simp)⟩
  | cons chan rest ih =>
    intro rows hnd h
    obtain ⟨hlt, r, hr⟩ := h chan (List.mem_cons_self _ _)
    have hchan_rest : chan ∉ rest := (List.nodup_cons.mp hnd).1
    have hrest_nd : rest.Nodup := (List.nodup_cons.mp hnd).2
    have hset_len : (rows.set chan r).length = rows.length := by simp
    have hset_ne : ∀ x, x ≠ chan → (rows.set chan r).getD x [] = rows.getD x [] :=
      fun x hx => getD_set_ne rows chan x r [] (fun hc => hx hc.symm)
    obtain ⟨rows', hrun, hlen, hun, hus⟩ := ih (rows.set chan r) hrest_nd
      (fun x hx => ⟨by rw [hset_len]; exact (h x (List.mem_cons_of_mem _ hx)).1,
        by rw [hset_ne x (fun hc => hchan_rest (hc ▸ hx))]
           exact (h x (List.mem_cons_of_mem _ hx)).2⟩)
    refine ⟨rows', ?_, by rw [hlen, hset_len], ?_, ?_⟩
    · rw [usedFoldM, if_pos hlt, hr]
      exact hrun
    · intro d hd
      have hd1 : d ≠ chan := fun hc => hd (hc ▸ List.mem_cons_self _ _)
      have hd2 : d ∉ rest := fun hc => hd (List.mem_cons_of_mem _ hc)
      rw [hun d hd2, hset_ne d hd1]
    · intro d hd
      rcases List.mem_cons.mp hd with rfl | hd'
      · rw [hun d hchan_rest, getD_set_self rows d r [] hlt]
        exact hr
      · rw [← hset_ne d (fun hc => hchan_rest (hc ▸ hd'))]
        exact hus d hd'

theorem usedFoldM_filter_transfer (gA gB : ℕ → List ℚ → Option (List ℚ))
    (c : ℕ) (hg : ∀ d, d ≠ c → ∀ row, gA d row = gB d row) :
    ∀ (usedA : List ℕ) (rowsA rowsB : List (List ℚ)), usedA.Nodup →
      rowsA.length = rowsB.length →
      (∀ d, d ≠ c → rowsA.getD d [] = rowsB.getD d []) →
      ∀ rA', usedFoldM gA usedA rowsA = some rA' →
      ∃ rB', usedFoldM gB (usedA.filter (fun d => d ≠ c)) rowsB = some rB' ∧
        rA'.length = rowsA.length ∧ rB'.length = rowsB.length ∧
        (∀ d, d ≠ c → rA'.getD d [] = rB'.getD d []) ∧
        (∀ d, d ∉ usedA.filter (fun x => x ≠ c) →
          rB'.getD d [] = rowsB.getD d []) := by
  intro usedA
  induction usedA with
  | nil =>
    intro rowsA rowsB _ hlen hrows rA' hA
    rw [usedFoldM] at hA
    refine ⟨rowsB, rfl, ?_, rfl, ?_, fun d _ => rfl⟩
    · rw [← Option.some_inj.mp hA]
    · intro d hd
      rw [← Option.some_inj.mp hA]
      exact hrows d hd
  | cons a rest ih =>
    intro rowsA rowsB hnd hlen hrows rA' hA
    have hrest_nd : rest.Nodup := (List.nodup_cons.mp hnd).2
    rw [usedFoldM] at hA
    split_ifs at hA with ha
    · rcases hga : gA a (rowsA.getD a []) with _ | r
      · rw [hga] at hA
        exact Option.noConfusion hA
      · rw [hga] at hA
        by_cases hac : a = c
        · subst hac
          have hfil : (a :: rest).filter (fun d => d ≠ a)
              = rest.filter (fun d => d ≠ a) := by
            rw [List.filter_cons]
            simp
          rw [hfil]
          obtain ⟨rB', hB, hl1, hl2, hr, hunch⟩ := ih (rowsA.set a r) rowsB
            hrest_nd (by simp [hlen]) (fun d hd => by
              rw [getD_set_ne rowsA a d r [] (fun hc => hd hc.symm)]
              exact hrows d hd) rA' hA
          refine ⟨rB', hB, by rw [hl1]; simp, hl2, hr, ?_⟩
          intro d hd
          exact hunch d hd
        · have hfil : (a :: rest).filter (fun d => d ≠ c)
              = a :: rest.filter (fun d => d ≠ c) := by
            rw [List.filter_cons]
            simp [hac]
          rw [hfil, usedFoldM, if_pos (by omega : a < rowsB.length)]
          rw [← hg a hac, ← hrows a hac, hga]
          obtain ⟨rB', hB, hl1, hl2, hr, hunch⟩ := ih (rowsA.set a r)
            (rowsB.set a r) hrest_nd (by simp [hlen]) (fun d hd => by
              by_cases hda : d = a
              · subst hda
                rw [getD_set_self rowsA d r [] ha,
                  getD_set_self rowsB d r [] (by omega)]
              · rw [getD_set_ne rowsA a d r [] (fun hc => hda hc.symm),
                  getD_set_ne rowsB a d r [] (fun hc => hda hc.symm)]
                exact hrows d hd) rA' hA
          refine ⟨rB', hB, by rw [hl1]; simp, by rw [hl2]; simp, hr, ?_⟩
          intro d hd
          have hda : d ≠ a := fun hc => hd (hc ▸ List.mem_cons_self _ _)
          rw [hunch d (fun hc => hd (List.mem_cons_of_mem _ hc)),
            getD_set_ne rowsB a d r [] (fun hc => hda hc.symm)]

/- ### Slide and copy: totality and shape -/

theorem slideRow_isSome (shift sinc_len : ℕ) (wav : List ℚ)
    (h : 2 * sinc_len = 0 ∨ 2 * sinc_len + shift ≤ wav.length) :
    ∃ r, slideRow shift sinc_len wav = some r ∧ r.length = wav.length := by
  rw [slideRow]
  by_cases h0 : 2 * sinc_len = 0
  · rw [if_pos h0]
    exact ⟨wav, rfl, rfl⟩
  · rw [if_neg h0, if_pos (h.resolve_left h0)]
    exact ⟨_, rfl, by simp⟩

theorem slideAll_spec (shift sinc_len : ℕ) :
    ∀ buffer : List (List ℚ),
      (∀ row ∈ buffer, 2 * sinc_len = 0 ∨ 2 * sinc_len + shift ≤ row.length) →
      ∃ buf', slideAll shift sinc_len buffer = some buf' ∧
        buf'.length = buffer.length ∧
        ∀ d, (buf'.getD d []).length = (buffer.getD d []).length := by
  intro buffer
  induction buffer with
  | nil => intro _; exact ⟨[], rfl, rfl, fun d => rfl⟩
  | cons row rest ih =>
    intro h
    obtain ⟨r, hr, hrl⟩ := slideRow_isSome shift sinc_len row
      (h row (List.mem_cons_self _ _))
    obtain ⟨rs, hrs, hrsl, hrsd⟩ := ih (fun x hx => h x (List.mem_cons_of_mem _ hx))
    refine ⟨r :: rs, by rw [slideAll, hr, hrs], by simp [hrsl], ?_⟩
    intro d
    cases d with
    | zero => exact hrl
    | succ d2 => simpa using hrsd d2

theorem copyRow_isSome (sinc_len : ℕ) (input wav : List ℚ)
    (h : input = [] ∨ 2 * sinc_len + input.length ≤ wav.length) :
    ∃ r, copyRow sinc_len input wav = some r ∧ r.length = wav.length := by
  rw [copyRow]
  by_cases h0 : input.length = 0
  · rw [if_pos h0]
    exact ⟨wav, rfl, rfl⟩
  · have hne : input ≠ [] := fun hc => h0 (by rw [hc]; rfl)
    rw [if_neg h0, if_pos (h.resolve_left hne)]
    exact ⟨_, rfl, by simp⟩

/- ### The per-sample channel pass -/

theorem channelPass_spec (ip : ScalarInterpolator) (itype : InterpolationType)
    (buffer : List (List ℚ)) (used : List ℕ) (idx : ℚ) (n : ℕ)
    (wout : List (List ℚ)) (hnd : used.Nodup)
    (h : ∀ chan ∈ used, chan < buffer.length ∧ chan < wout.length ∧
      n < (wout.getD chan []).length ∧
      ∃ v, calcSample ip itype (buffer.getD chan []) idx = some v) :
    ∃ wout', channelPass ip itype buffer used idx n wout = some wout' ∧
      wout'.length = wout.length ∧
      (∀ d, d ∉ used → wout'.getD d [] = wout.getD d []) ∧
      (∀ d, (wout'.getD d []).length = (wout.getD d []).length) := by
  obtain ⟨wout', hrun, hlen, hun, hus⟩ := usedFoldM_spec
    (fun chan row =>
      if chan < buffer.length then
        match calcSample ip itype (buffer.getD chan []) idx with
        | some v => if n < row.length then some (row.set n v) else none
        | none => none
      else none) used wout hnd
    (fun chan hc => by
      obtain ⟨h1, h2, h3, v, hv⟩ := h chan hc
      refine ⟨h2, (wout.getD chan []).set n v, ?_⟩
      dsimp only
      rw [if_pos h1, hv]
      show (if n < (wout.getD chan []).length then
        some ((wout.getD chan []).set n v) else none)
          = some ((wout.getD chan []).set n v)
      rw [if_pos h3])
  refine ⟨wout', hrun, hlen, hun, ?_⟩
  intro d
  by_cases hd : d ∈ used
  · obtain ⟨h1, h2, h3, v, hv⟩ := h d hd
    have hthis := hus d hd
    rw [if_pos h1, hv] at hthis
    have hthis2 : (if n < (wout.getD d []).length then
        some ((wout.getD d []).set n v) else none)
          = some (wout'.getD d []) := hthis
    rw [if_pos h3] at hthis2
    rw [← Option.some_inj.mp hthis2]
    simp
  · rw [hun d hd]

/- ### The counted loop (fixed-output engine) -/

theorem loopFrom_spec (ip : ScalarInterpolator) (itype : InterpolationType)
    (buffer : List (List ℚ)) (used : List ℕ) (t : ℚ)
    (hwf : ip.Wf) (hK : 0 < ip.nbr_sincs) (ht : 0 < t) (hnd : used.Nodup)
    (hbuf : ∀ chan ∈ used, chan < buffer.length) :
    ∀ (count n : ℕ) (idx : ℚ) (wout : List (List ℚ)),
      0 ≤ ⌊idx + t⌋ - 1 + 2 * (ip.length : ℤ) →
      (∀ chan ∈ used, ⌊idx + (count : ℚ) * t⌋ +
        upMargin itype ip.nbr_sincs + 3 * (ip.length : ℤ)
        < ((buffer.getD chan []).length : ℤ)) →
      (∀ chan ∈ used, chan < wout.length ∧
        n + count ≤ (wout.getD chan []).length) →
      ∃ wout', loopFrom ip itype buffer used t count n idx wout
          = some (idx + (count : ℚ) * t, wout') ∧
        wout'.length = wout.length ∧
        (∀ d, d ∉ used → wout'.getD d [] = wout.getD d []) ∧
        (∀ d, (wout'.getD d []).length = (wout.getD d []).length) := by
  intro count
  induction count with
  | zero =>
    intro n idx wout _ _ _
    refine ⟨wout, ?_, rfl, fun d _ => rfl, fun d => rfl⟩
    rw [loopFrom]
    norm_num
  | succ count ih =>
    intro n idx wout hlow hhigh hwrite
    have hct : (0 : ℚ) ≤ (count : ℚ) * t :=
      mul_nonneg (by positivity) (le_of_lt ht)
    have hmono : ∀ chan ∈ used, ⌊idx + t⌋ + upMargin itype ip.nbr_sincs +
        3 * (ip.length : ℤ) < ((buffer.getD chan []).length : ℤ) := by
      intro chan hc
      have h1 : idx + t ≤ idx + ((count : ℕ) + 1 : ℚ) * t := by
        nlinarith
      have h2 : ⌊idx + t⌋ ≤ ⌊idx + (((count : ℕ) + 1 : ℕ) : ℚ) * t⌋ := by
        apply Int.floor_le_floor
        push_cast
        push_cast at h1
        linarith
      have h3 := hhigh chan hc
      omega
    obtain ⟨wout1, hcp, hl1, hu1, hr1⟩ := channelPass_spec ip itype buffer used
      (idx + t) n wout hnd (fun chan hc =>
        ⟨hbuf chan hc, (hwrite chan hc).1,
          by have := (hwrite chan hc).2; omega,
          calcSample_isSome ip itype _ (idx + t) hwf hK hlow (hmono chan hc)⟩)
    have hlow2 : 0 ≤ ⌊idx + t + t⌋ - 1 + 2 * (ip.length : ℤ) := by
      have : ⌊idx + t⌋ ≤ ⌊idx + t + t⌋ :=
        Int.floor_le_floor (by linarith)
      omega
    have hhigh2 : ∀ chan ∈ used, ⌊idx + t + (count : ℚ) * t⌋ +
        upMargin itype ip.nbr_sincs + 3 * (ip.length : ℤ)
        < ((buffer.getD chan []).length : ℤ) := by
      intro chan hc
      have harg : idx + t + (count : ℚ) * t
          = idx + (((count : ℕ) + 1 : ℕ) : ℚ) * t := by
        push_cast
        ring
      rw [harg]
      exact hhigh chan hc
    have hwrite2 : ∀ chan ∈ used, chan < wout1.length ∧
        n + 1 + count ≤ (wout1.getD chan []).length := by
      intro chan hc
      refine ⟨by rw [hl1]; exact (hwrite chan hc).1, ?_⟩
      rw [hr1 chan]
      have := (hwrite chan hc).2
      omega
    obtain ⟨wout2, hrun2, hl4, hu2, hr2⟩ := ih (n + 1) (idx + t) wout1
      hlow2 hhigh2 hwrite2
    refine ⟨wout2, ?_, by rw [hl4, hl1], ?_, fun d => by rw [hr2 d, hr1 d]⟩
    · have hstep : loopFrom ip itype buffer used t (count + 1) n idx wout
          = loopFrom ip itype buffer used t count (n + 1) (idx + t) wout1 := by
        rw [loopFrom, hcp]
      rw [hstep, hrun2]
      have harg : idx + t + (count : ℚ) * t
          = idx + (((count : ℕ) + 1 : ℕ) : ℚ) * t := by
        push_cast
        ring
      rw [harg]
    · intro d hd
      rw [hu2 d hd, hu1 d hd]

/- ### The guarded loop (fixed-input engine) -/

theorem loopWhile_spec (ip : ScalarInterpolator) (itype : InterpolationType)
    (buffer : List (List ℚ)) (used : List ℕ) (t : ℚ) (endIdx : ℤ)
    (hwf : ip.Wf) (hK : 0 < ip.nbr_sincs) (ht : 0 < t) (hnd : used.Nodup)
    (hbuf : ∀ chan ∈ used, chan < buffer.length)
    (hhigh : ∀ chan ∈ used, endIdx + ⌈t⌉ - 1 +
      upMargin itype ip.nbr_sincs + 3 * (ip.length : ℤ)
      < ((buffer.getD chan []).length : ℤ)) :
    ∀ (fuel n : ℕ) (idx : ℚ) (wout : List (List ℚ)),
      0 ≤ ⌊idx + t⌋ - 1 + 2 * (ip.length : ℤ) →
      (∀ chan ∈ used, chan < wout.length ∧
        (n : ℤ) + max ⌈((endIdx : ℚ) - idx) / t⌉ 0
          ≤ ((wout.getD chan []).length : ℤ)) →
      ∃ n' idx' wout',
        loopWhile ip itype buffer used t endIdx fuel n idx wout
          = some (n', idx', wout') ∧
        n ≤ n' ∧
        (n' : ℤ) ≤ (n : ℤ) + max ⌈((endIdx : ℚ) - idx) / t⌉ 0 ∧
        wout'.length = wout.length ∧
        (∀ d, d ∉ used → wout'.getD d [] = wout.getD d []) ∧
        (∀ d, (wout'.getD d []).length = (wout.getD d []).length) := by
  intro fuel
  induction fuel with
  | zero =>
    intro n idx wout _ _
    exact ⟨n, idx, wout, rfl, le_refl n, by omega, rfl, fun d _ => rfl,
      fun d => rfl⟩
  | succ fuel ih =>
    intro n idx wout hlow hwrite
    by_cases hguard : idx < (endIdx : ℚ)
    · have hc1 : 1 ≤ ⌈((endIdx : ℚ) - idx) / t⌉ := by
        have hp : 0 < ((endIdx : ℚ) - idx) / t :=
          div_pos (by linarith) ht
        exact Int.ceil_pos.mpr hp
      have hmax : max ⌈((endIdx : ℚ) - idx) / t⌉ 0
          = ⌈((endIdx : ℚ) - idx) / t⌉ := max_eq_left (by omega)
      have hupbd : ⌊idx + t⌋ ≤ endIdx + ⌈t⌉ - 1 := by
        have h1 : idx + t < (endIdx : ℚ) + (⌈t⌉ : ℤ) := by
          have := Int.le_ceil t
          linarith
        have h2 : (⌊idx + t⌋ : ℚ) ≤ idx + t := Int.floor_le _
        have h3 : (⌊idx + t⌋ : ℚ) < ((endIdx + ⌈t⌉ : ℤ) : ℚ) := by
          push_cast
          push_cast at h1
          linarith
        have h4 : ⌊idx + t⌋ < endIdx + ⌈t⌉ := by exact_mod_cast h3
        omega
      have hmono : ∀ chan ∈ used, ⌊idx + t⌋ + upMargin itype ip.nbr_sincs +
          3 * (ip.length : ℤ) < ((buffer.getD chan []).length : ℤ) := by
        intro chan hc
        have := hhigh chan hc
        omega
      obtain ⟨wout1, hcp, hl1, hu1, hr1⟩ := channelPass_spec ip itype buffer
        used (idx + t) n wout hnd (fun chan hc =>
          ⟨hbuf chan hc, (hwrite chan hc).1,
            by
              have := (hwrite chan hc).2
              rw [hmax] at this
              omega,
            calcSample_isSome ip itype _ (idx + t) hwf hK hlow
              (hmono chan hc)⟩)
      have hceil : ⌈((endIdx : ℚ) - (idx + t)) / t⌉
          = ⌈((endIdx : ℚ) - idx) / t⌉ - 1 := by
        have harg : ((endIdx : ℚ) - (idx + t)) / t
            = ((endIdx : ℚ) - idx) / t - 1 := by
          field_simp
          ring
        rw [harg, Int.ceil_sub_one]
      have hlow2 : 0 ≤ ⌊idx + t + t⌋ - 1 + 2 * (ip.length : ℤ) := by
        have : ⌊idx + t⌋ ≤ ⌊idx + t + t⌋ :=
          Int.floor_le_floor (by linarith)
        omega
      have hwrite2 : ∀ chan ∈ used, chan < wout1.length ∧
          ((n + 1 : ℕ) : ℤ) + max ⌈((endIdx : ℚ) - (idx + t)) / t⌉ 0
            ≤ ((wout1.getD chan []).length : ℤ) := by
        intro chan hc
        refine ⟨by rw [hl1]; exact (hwrite chan hc).1, ?_⟩
        rw [hr1 chan, hceil]
        have := (hwrite chan hc).2
        rw [hmax] at this
        have hm2 : max (⌈((endIdx : ℚ) - idx) / t⌉ - 1) 0
            = ⌈((endIdx : ℚ) - idx) / t⌉ - 1 := max_eq_left (by omega)
        rw [hm2]
        push_cast
        omega
      obtain ⟨n', idx', wout2, hrun2, hn1, hn2, hl4, hu2, hr2⟩ :=
        ih (n + 1) (idx + t) wout1 hlow2 hwrite2
      refine ⟨n', idx', wout2, ?_, by omega, ?_, by rw [hl4, hl1], ?_,
        fun d => by rw [hr2 d, hr1 d]⟩
      · have hstep : loopWhile ip itype buffer used t endIdx (fuel + 1) n idx
            wout = loopWhile ip itype buffer used t endIdx fuel (n + 1)
              (idx + t) wout1 := by
          rw [loopWhile, if_pos hguard, hcp]
        rw [hstep, hrun2]
      · rw [hceil] at hn2
        have hm2 : max (⌈((endIdx : ℚ) - idx) / t⌉ - 1) 0
            = ⌈((endIdx : ℚ) - idx) / t⌉ - 1 := max_eq_left (by omega)
        rw [hm2] at hn2
        rw [hmax]
        push_cast at hn2
        omega
      · intro d hd
        rw [hu2 d hd, hu1 d hd]
    · refine ⟨n, idx, wout, ?_, le_refl n, by omega, rfl, fun d _ => rfl,
        fun d => rfl⟩
      rw [loopWhile, if_neg hguard]

/- ### Process assembly -/

theorem getD_mem {α : Type} (l : List α) (i : ℕ) (d : α) (h : i < l.length) :
    l.getD i d ∈ l := by
  rw [List.getD_eq_getElem?_getD, List.getElem?_eq_getElem h]
  exact List.getElem_mem h

theorem getD_map_range (f : ℕ → List ℚ) (m i : ℕ) (h : i < m) :
    ((List.range m).map f).getD i [] = f i := by
  rw [List.getD_eq_getElem?_getD, List.getElem?_map, List.getElem?_range h]
  rfl

theorem getD_map_range_oob (f : ℕ → List ℚ) (m i : ℕ) (h : ¬ i < m) :
    ((List.range m).map f).getD i [] = [] := by
  rw [List.getD_eq_getElem?_getD, List.getElem?_map]
  rw [List.getElem?_eq_none (by simpa using h)]
  rfl

theorem copyRow_length (sinc_len : ℕ) (input wav r : List ℚ)
    (h : copyRow sinc_len input wav = some r) : r.length = wav.length := by
  rw [copyRow] at h
  split_ifs at h
  · rw [← Option.some_inj.mp h]
  · rw [← Option.some_inj.mp h]
    simp

theorem copyFold_spec (sinc_len : ℕ) (wave_in : List (List ℚ)) (used : List ℕ)
    (buf : List (List ℚ)) (hnd : used.Nodup)
    (h : ∀ chan ∈ used, chan < buf.length ∧ chan < wave_in.length ∧
      (wave_in.getD chan [] = [] ∨
        2 * sinc_len + (wave_in.getD chan []).length
          ≤ (buf.getD chan []).length)) :
    ∃ buf2, usedFoldM (fun chan row =>
        if chan < wave_in.length then copyRow sinc_len (wave_in.getD chan []) row
        else none) used buf = some buf2 ∧
      buf2.length = buf.length ∧
      ∀ d, (buf2.getD d []).length = (buf.getD d []).length := by
  obtain ⟨buf2, hrun, hlen, hun, hus⟩ := usedFoldM_spec
    (fun chan row =>
      if chan < wave_in.length then copyRow sinc_len (wave_in.getD chan []) row
      else none) used buf hnd
    (fun chan hc => by
      obtain ⟨h1, h2, h3⟩ := h chan hc
      obtain ⟨r, hr, -⟩ := copyRow_isSome sinc_len (wave_in.getD chan [])
        (buf.getD chan []) h3
      exact ⟨h1, r, by dsimp only; rw [if_pos h2]; exact hr⟩)
  refine ⟨buf2, hrun, hlen, ?_⟩
  intro d
  by_cases hd : d ∈ used
  · obtain ⟨h1, h2, h3⟩ := h d hd
    have hthis := hus d hd
    rw [if_pos h2] at hthis
    exact copyRow_length sinc_len _ _ _ hthis
  · rw [hun d hd]

/-- Assembling a successful `SincFixedIn::process` run from its pieces. -/
theorem SincFixedIn.process_eq (s : SincFixedIn) (win : List (List ℚ))
    (used : List ℕ) (buf1 buf2 : List (List ℚ)) (n : ℕ) (idx : ℚ)
    (wout : List (List ℚ))
    (hC : win.length = s.nbr_channels)
    (hv : validateChans s.chunk_size 0 win [] = (none, used))
    (hslide : slideAll s.chunk_size s.interpolator.length s.buffer = some buf1)
    (hcopy : usedFoldM (fun chan row =>
      if chan < win.length then
        copyRow s.interpolator.length (win.getD chan []) row
      else none) used buf1 = some buf2)
    (hloop : loopWhile s.interpolator s.interpolation buf2 used
      (1 / s.resample_ratio)
      ((s.chunk_size : ℤ) - ((s.interpolator.length : ℤ) + 1) -
        ⌈1 / s.resample_ratio⌉)
      ((⌈((((s.chunk_size : ℤ) - ((s.interpolator.length : ℤ) + 1) -
        ⌈1 / s.resample_ratio⌉ : ℤ) : ℚ) - s.last_index) /
          (1 / s.resample_ratio)⌉).toNat + 1)
      0 s.last_index
      ((List.range s.nbr_channels).map fun chan =>
        if chan ∈ used then
          List.replicate (allocSize s.chunk_size s.resample_ratio) (0 : ℚ)
        else []) = some (n, idx, wout)) :
    s.process win = some (Except.ok
      (used.foldl (fun wo chan => wo.set chan ((wo.getD chan []).take n)) wout),
      { s with last_index := idx - (s.chunk_size : ℚ), buffer := buf2 }) := by
  rw [SincFixedIn.process, if_neg (by omega), hv]
  dsimp only
  rw [hslide]
  dsimp only
  rw [hcopy]
  dsimp only
  rw [hloop]

/- ### Two-run transfer: dropping one channel does not affect the others -/

theorem channelPass_transfer (ip : ScalarInterpolator)
    (itype : InterpolationType) (bufA bufB : List (List ℚ)) (usedA : List ℕ)
    (c : ℕ) (idx : ℚ) (n : ℕ) (woutA woutB : List (List ℚ))
    (hnd : usedA.Nodup) (hblen : bufA.length = bufB.length)
    (hbrows : ∀ d, d ≠ c → bufA.getD d [] = bufB.getD d [])
    (hwlen : woutA.length = woutB.length)
    (hwrows : ∀ d, d ≠ c → woutA.getD d [] = woutB.getD d [])
    (w1A : List (List ℚ))
    (hA : channelPass ip itype bufA usedA idx n woutA = some w1A) :
    ∃ w1B, channelPass ip itype bufB (usedA.filter (fun d => d ≠ c)) idx n
        woutB = some w1B ∧
      w1A.length = woutA.length ∧ w1B.length = woutB.length ∧
      (∀ d, d ≠ c → w1A.getD d [] = w1B.getD d []) ∧
      (∀ d, d ∉ usedA.filter (fun x => x ≠ c) →
        w1B.getD d [] = woutB.getD d []) := by
  have hg : ∀ d, d ≠ c → ∀ row : List ℚ,
      (fun (chan : ℕ) (row : List ℚ) =>
        if chan < bufA.length then
          match calcSample ip itype (bufA.getD chan []) idx with
          | some v => if n < row.length then some (row.set n v) else none
          | none => none
        else none) d row =
      (fun (chan : ℕ) (row : List ℚ) =>
        if chan < bufB.length then
          match calcSample ip itype (bufB.getD chan []) idx with
          | some v => if n < row.length then some (row.set n v) else none
          | none => none
        else none) d row := by
    intro d hd row
    dsimp only
    rw [hblen, hbrows d hd]
  obtain ⟨w1B, hB, hl1, hl2, hr, hunch⟩ := usedFoldM_filter_transfer _ _ c hg
    usedA woutA woutB hnd hwlen hwrows w1A hA
  exact ⟨w1B, hB, hl1, hl2, hr, hunch⟩

theorem loopWhile_transfer (ip : ScalarInterpolator)
    (itype : InterpolationType) (bufA bufB : List (List ℚ)) (usedA : List ℕ)
    (c : ℕ) (t : ℚ) (endIdx : ℤ)
    (hnd : usedA.Nodup) (hblen : bufA.length = bufB.length)
    (hbrows : ∀ d, d ≠ c → bufA.getD d [] = bufB.getD d []) :
    ∀ (fuel n : ℕ) (idx : ℚ) (woutA woutB : List (List ℚ)),
      woutA.length = woutB.length →
      (∀ d, d ≠ c → woutA.getD d [] = woutB.getD d []) →
      ∀ nA idxA woutA',
        loopWhile ip itype bufA usedA t endIdx fuel n idx woutA
          = some (nA, idxA, woutA') →
        ∃ woutB', loopWhile ip itype bufB (usedA.filter (fun d => d ≠ c)) t
            endIdx fuel n idx woutB = some (nA, idxA, woutB') ∧
          woutA'.length = woutA.length ∧ woutB'.length = woutB.length ∧
          (∀ d, d ≠ c → woutA'.getD d [] = woutB'.getD d []) ∧
          (∀ d, d ∉ usedA.filter (fun x => x ≠ c) →
            woutB'.getD d [] = woutB.getD d []) := by
  intro fuel
  induction fuel with
  | zero =>
    intro n idx woutA woutB hwlen hwrows nA idxA woutA' hA
    rw [loopWhile] at hA
    simp only [Option.some.injEq, Prod.mk.injEq] at hA
    obtain ⟨rfl, rfl, rfl⟩ := hA
    exact ⟨woutB, rfl, rfl, rfl, hwrows, fun d _ => rfl⟩
  | succ fuel ih =>
    intro n idx woutA woutB hwlen hwrows nA idxA woutA' hA
    rw [loopWhile] at hA
    by_cases hguard : idx < (endIdx : ℚ)
    · rw [if_pos hguard] at hA
      rcases hcpA : channelPass ip itype bufA usedA (idx + t) n woutA
        with _ | w1A
      · rw [hcpA] at hA
        exact Option.noConfusion hA
      · rw [hcpA] at hA
        obtain ⟨w1B, hcpB, hl1, hl2, hr, hu1⟩ := channelPass_transfer ip itype
          bufA bufB usedA c (idx + t) n woutA woutB hnd hblen hbrows hwlen
          hwrows w1A hcpA
        obtain ⟨woutB', hrunB, hl3, hl4, hr2, hu2⟩ := ih (n + 1) (idx + t)
          w1A w1B (by rw [hl1, hl2, hwlen]) hr nA idxA woutA' hA
        refine ⟨woutB', ?_, by rw [hl3, hl1], by rw [hl4, hl2], hr2, ?_⟩
        · rw [loopWhile, if_pos hguard, hcpB]
          exact hrunB
        · intro d hd
          rw [hu2 d hd, hu1 d hd]
    · rw [if_neg hguard] at hA
      simp only [Option.some.injEq, Prod.mk.injEq] at hA
      obtain ⟨rfl, rfl, rfl⟩ := hA
      refine ⟨woutB, ?_, rfl, rfl, hwrows, fun d _ => rfl⟩
      rw [loopWhile, if_neg hguard]

theorem loopFrom_transfer (ip : ScalarInterpolator)
    (itype : InterpolationType) (bufA bufB : List (List ℚ)) (usedA : List ℕ)
    (c : ℕ) (t : ℚ)
    (hnd : usedA.Nodup) (hblen : bufA.length = bufB.length)
    (hbrows : ∀ d, d ≠ c → bufA.getD d [] = bufB.getD d []) :
    ∀ (count n : ℕ) (idx : ℚ) (woutA woutB : List (List ℚ)),
      woutA.length = woutB.length →
      (∀ d, d ≠ c → woutA.getD d [] = woutB.getD d []) →
      ∀ idxA woutA',
        loopFrom ip itype bufA usedA t count n idx woutA
          = some (idxA, woutA') →
        ∃ woutB', loopFrom ip itype bufB (usedA.filter (fun d => d ≠ c)) t
            count n idx woutB = some (idxA, woutB') ∧
          woutA'.length = woutA.length ∧ woutB'.length = woutB.length ∧
          (∀ d, d ≠ c → woutA'.getD d [] = woutB'.getD d []) ∧
          (∀ d, d ∉ usedA.filter (fun x => x ≠ c) →
            woutB'.getD d [] = woutB.getD d []) := by
  intro count
  induction count with
  | zero =>
    intro n idx woutA woutB hwlen hwrows idxA woutA' hA
    rw [loopFrom] at hA
    simp only [Option.some.injEq, Prod.mk.injEq] at hA
    obtain ⟨rfl, rfl⟩ := hA
    exact ⟨woutB, rfl, rfl, rfl, hwrows, fun d _ => rfl⟩
  | succ count ih =>
    intro n idx woutA woutB hwlen hwrows idxA woutA' hA
    rw [loopFrom] at hA
    rcases hcpA : channelPass ip itype bufA usedA (idx + t) n woutA
      with _ | w1A
    · rw [hcpA] at hA
      exact Option.noConfusion hA
    · rw [hcpA] at hA
      obtain ⟨w1B, hcpB, hl1, hl2, hr, hu1⟩ := channelPass_transfer ip itype
        bufA bufB usedA c (idx + t) n woutA woutB hnd hblen hbrows hwlen
        hwrows w1A hcpA
      obtain ⟨woutB', hrunB, hl3, hl4, hr2, hu2⟩ := ih (n + 1) (idx + t)
        w1A w1B (by rw [hl1, hl2, hwlen]) hr idxA woutA' hA
      refine ⟨woutB', ?_, by rw [hl3, hl1], by rw [hl4, hl2], hr2, ?_⟩
      · rw [loopFrom, hcpB]
        exact hrunB
      · intro d hd
        rw [hu2 d hd, hu1 d hd]

/- ### Engine invariants sufficient for a panic-free call -/

/-- Invariant of a fixed-input engine sufficient for `process` to run
without aborting: a well-formed bank, positive ratio, the constructor's
buffer shape, a cursor not too far left (as maintained by the loop's exit
condition), and, for cubic interpolation, at least two sub-phase tables
(with `K = 1` the cubic +2 neighbour can read one past the buffer). -/
def SincFixedIn.Ready (s : SincFixedIn) : Prop :=
  s.interpolator.Wf ∧ 0 < s.interpolator.nbr_sincs ∧ 0 < s.resample_ratio ∧
  s.buffer.length = s.nbr_channels ∧
  (∀ row ∈ s.buffer, row.length = s.chunk_size + 2 * s.interpolator.length) ∧
  -((s.interpolator.length : ℚ) + 1 + ((⌈1 / s.resample_ratio⌉ : ℤ) : ℚ))
    ≤ s.last_index ∧
  (s.interpolation = InterpolationType.Cubic → 2 ≤ s.interpolator.nbr_sincs)

instance (s : SincFixedIn) : Decidable s.Ready :=
  decidable_of_iff
    (s.interpolator.Wf ∧ 0 < s.interpolator.nbr_sincs ∧
      0 < s.resample_ratio ∧ s.buffer.length = s.nbr_channels ∧
      (∀ row ∈ s.buffer,
        row.length = s.chunk_size + 2 * s.interpolator.length) ∧
      -((s.interpolator.length : ℚ) + 1 +
        ((⌈1 / s.resample_ratio⌉ : ℤ) : ℚ)) ≤ s.last_index ∧
      (s.interpolation = InterpolationType.Cubic →
        2 ≤ s.interpolator.nbr_sincs)) Iff.rfl

/-- Invariant of a fixed-output engine sufficient for `process` to run
without aborting. -/
def SincFixedOut.Ready (s : SincFixedOut) : Prop :=
  s.interpolator.Wf ∧ 0 < s.interpolator.nbr_sincs ∧ 0 < s.resample_ratio ∧
  s.buffer.length = s.nbr_channels ∧
  (∀ row ∈ s.buffer,
    2 * s.interpolator.length + s.current_buffer_fill ≤ row.length ∧
    2 * s.interpolator.length + s.needed_input_size ≤ row.length ∧
    ⌊s.last_index + (s.chunk_size : ℚ) * (1 / s.resample_ratio)⌋ +
      upMargin s.interpolation s.interpolator.nbr_sincs +
      3 * (s.interpolator.length : ℤ) < (row.length : ℤ)) ∧
  0 ≤ ⌊s.last_index + 1 / s.resample_ratio⌋ - 1 +
    2 * (s.interpolator.length : ℤ)

instance (s : SincFixedOut) : Decidable s.Ready :=
  decidable_of_iff
    (s.interpolator.Wf ∧ 0 < s.interpolator.nbr_sincs ∧
      0 < s.resample_ratio ∧ s.buffer.length = s.nbr_channels ∧
      (∀ row ∈ s.buffer,
        2 * s.interpolator.length + s.current_buffer_fill ≤ row.length ∧
        2 * s.interpolator.length + s.needed_input_size ≤ row.length ∧
        ⌊s.last_index + (s.chunk_size : ℚ) * (1 / s.resample_ratio)⌋ +
          upMargin s.interpolation s.interpolator.nbr_sincs +
          3 * (s.interpolator.length : ℤ) < (row.length : ℤ)) ∧
      0 ≤ ⌊s.last_index + 1 / s.resample_ratio⌋ - 1 +
        2 * (s.interpolator.length : ℤ)) Iff.rfl

/- ### Output truncation -/

theorem foldl_truncate_getD (n : ℕ) :
    ∀ (used : List ℕ) (wout : List (List ℚ)) (d : ℕ),
      (used.foldl (fun wo chan => wo.set chan ((wo.getD chan []).take n))
        wout).getD d []
      = if d ∈ used then (wout.getD d []).take n else wout.getD d [] := by
  intro used
  induction used with
  | nil => intro wout d; simp
  | cons a rest ih =>
    intro wout d
    rw [List.foldl_cons, ih]
    by_cases hda : d = a
    · subst hda
      by_cases hdl : d < wout.length
      · by_cases hdr : d ∈ rest
        · rw [if_pos hdr, if_pos (by simp), getD_set_self _ _ _ _ hdl,
            List.take_take, min_self]
        · rw [if_neg hdr, if_pos (by simp), getD_set_self _ _ _ _ hdl]
      · have hset : wout.set d ((wout.getD d []).take n) = wout :=
          set_oob _ _ _ (by omega)
        rw [hset]
        have hnil : wout.getD d [] = [] := by
          rw [List.getD_eq_getElem?_getD, List.getElem?_eq_none (by omega)]
          rfl
        by_cases hdr : d ∈ rest
        · rw [if_pos hdr, if_pos (by simp), hnil]
        · rw [if_neg hdr, if_pos (by simp), hnil]
          simp
    · rw [getD_set_ne _ _ _ _ _ (fun hc => hda hc.symm)]
      by_cases hdr : d ∈ rest
      · rw [if_pos hdr, if_pos (by simp [hdr])]
      · rw [if_neg hdr, if_neg (by simp [hda, hdr])]

theorem foldl_truncate_length (n : ℕ) :
    ∀ (used : List ℕ) (wout : List (List ℚ)),
      (used.foldl (fun wo chan => wo.set chan ((wo.getD chan []).take n))
        wout).length = wout.length := by
  intro used
  induction used with
  | nil => intro wout; rfl
  | cons a rest ih =>
    intro wout
    rw [List.foldl_cons, ih]
    simp

/- ### A ready fixed-input engine runs to completion -/

theorem SincFixedIn.run_exists (s : SincFixedIn) (win : List (List ℚ))
    (hrdy : s.Ready) (hC : win.length = s.nbr_channels)
    (hrows : ∀ w ∈ win, w ≠ [] → w.length = s.chunk_size) :
    ∃ buf1 buf2 n idx wout,
      slideAll s.chunk_size s.interpolator.length s.buffer = some buf1 ∧
      usedFoldM (fun chan row =>
        if chan < win.length then
          copyRow s.interpolator.length (win.getD chan []) row
        else none) (usedIdx win) buf1 = some buf2 ∧
      loopWhile s.interpolator s.interpolation buf2 (usedIdx win)
        (1 / s.resample_ratio)
        ((s.chunk_size : ℤ) - ((s.interpolator.length : ℤ) + 1) -
          ⌈1 / s.resample_ratio⌉)
        ((⌈((((s.chunk_size : ℤ) - ((s.interpolator.length : ℤ) + 1) -
          ⌈1 / s.resample_ratio⌉ : ℤ) : ℚ) - s.last_index) /
            (1 / s.resample_ratio)⌉).toNat + 1)
        0 s.last_index
        ((List.range s.nbr_channels).map fun chan =>
          if chan ∈ usedIdx win then
            List.replicate (allocSize s.chunk_size s.resample_ratio) (0 : ℚ)
          else []) = some (n, idx, wout) ∧
      buf2.length = s.buffer.length ∧
      (∀ d, (buf2.getD d []).length = (s.buffer.getD d []).length) ∧
      wout.length = s.nbr_channels ∧
      (∀ d, d ∉ usedIdx win → wout.getD d []
        = (((List.range s.nbr_channels).map fun chan =>
            if chan ∈ usedIdx win then
              List.replicate (allocSize s.chunk_size s.resample_ratio) (0 : ℚ)
            else []).getD d [])) ∧
      (∀ d, (wout.getD d []).length
        = ((((List.range s.nbr_channels).map fun chan =>
            if chan ∈ usedIdx win then
              List.replicate (allocSize s.chunk_size s.resample_ratio) (0 : ℚ)
            else []).getD d []).length)) ∧
      n ≤ allocSize s.chunk_size s.resample_ratio := by
  obtain ⟨hwf, hK, hr, hblenC, hbrows, hlast, hcub⟩ := hrdy
  have hLpos : 0 < s.interpolator.length := hwf.1
  have hL8 : 8 ≤ s.interpolator.length :=
    Nat.le_of_dvd hLpos (Nat.dvd_of_mod_eq_zero hwf.2.1)
  have ht : 0 < 1 / s.resample_ratio := by positivity
  obtain ⟨buf1, hslide, hb1len, hb1rows⟩ := slideAll_spec s.chunk_size
    s.interpolator.length s.buffer (fun row hrow =>
      Or.inr (by rw [hbrows row hrow]; omega))
  have hmemlt : ∀ chan ∈ usedIdx win, chan < win.length :=
    fun chan hc => ((mem_usedIdx win chan).mp hc).1
  have hbufrow_len : ∀ chan, chan < s.nbr_channels →
      (s.buffer.getD chan []).length
        = s.chunk_size + 2 * s.interpolator.length := by
    intro chan hc
    exact hbrows _ (getD_mem s.buffer chan [] (by omega))
  obtain ⟨buf2, hcopy, hb2len, hb2rows⟩ := copyFold_spec s.interpolator.length
    win (usedIdx win) buf1 (usedIdx_nodup win) (fun chan hc => by
      have h1 : chan < win.length := hmemlt chan hc
      have h2 : win.getD chan [] ≠ [] := ((mem_usedIdx win chan).mp hc).2
      refine ⟨by omega, h1, Or.inr ?_⟩
      rw [hrows _ (getD_mem win chan [] h1) h2, hb1rows chan,
        hbufrow_len chan (by omega)]
      omega)
  have hupM : upMargin s.interpolation s.interpolator.nbr_sincs ≤ 1 := by
    cases hit : s.interpolation with
    | Nearest => rw [upMargin]; omega
    | Linear => rw [upMargin]
    | Cubic =>
      rw [upMargin, if_neg (by have := hcub hit; omega)]
  have hlow : 0 ≤ ⌊s.last_index + 1 / s.resample_ratio⌋ - 1 +
      2 * (s.interpolator.length : ℤ) := by
    have hceil : ((⌈1 / s.resample_ratio⌉ : ℤ) : ℚ)
        < 1 / s.resample_ratio + 1 := Int.ceil_lt_add_one _
    have h3 : ((-((s.interpolator.length : ℤ) + 2) : ℤ) : ℚ)
        ≤ s.last_index + 1 / s.resample_ratio := by
      push_cast
      linarith
    have h4 : -((s.interpolator.length : ℤ) + 2)
        ≤ ⌊s.last_index + 1 / s.resample_ratio⌋ := Int.le_floor.mpr h3
    omega
  have hfl : (0 : ℤ) ≤ ⌊(s.chunk_size : ℚ) * s.resample_ratio + 10⌋ := by
    apply Int.floor_nonneg.mpr
    positivity
  have hflnn : (0 : ℤ) ≤ ⌊(s.chunk_size : ℚ) * s.resample_ratio⌋ := by
    apply Int.floor_nonneg.mpr
    positivity
  have hallocZ : (allocSize s.chunk_size s.resample_ratio : ℤ)
      = ⌊(s.chunk_size : ℚ) * s.resample_ratio⌋ + 10 := by
    rw [allocSize, Int.toNat_of_nonneg hfl,
      show ((10 : ℚ)) = ((10 : ℤ) : ℚ) by norm_num, Int.floor_add_int]
  have hEr : ((((s.chunk_size : ℤ) - ((s.interpolator.length : ℤ) + 1) -
      ⌈1 / s.resample_ratio⌉ : ℤ) : ℚ) - s.last_index)
      ≤ (s.chunk_size : ℚ) := by
    push_cast
    linarith
  have hdiv : ((((s.chunk_size : ℤ) - ((s.interpolator.length : ℤ) + 1) -
      ⌈1 / s.resample_ratio⌉ : ℤ) : ℚ) - s.last_index) /
        (1 / s.resample_ratio)
      ≤ (s.chunk_size : ℚ) * s.resample_ratio := by
    have hx : ((((s.chunk_size : ℤ) - ((s.interpolator.length : ℤ) + 1) -
        ⌈1 / s.resample_ratio⌉ : ℤ) : ℚ) - s.last_index) /
          (1 / s.resample_ratio)
        = ((((s.chunk_size : ℤ) - ((s.interpolator.length : ℤ) + 1) -
        ⌈1 / s.resample_ratio⌉ : ℤ) : ℚ) - s.last_index) * s.resample_ratio := by
      rw [div_div_eq_mul_div, div_one]
    rw [hx]
    exact mul_le_mul_of_nonneg_right hEr (le_of_lt hr)
  have hceil2 : ⌈((((s.chunk_size : ℤ) - ((s.interpolator.length : ℤ) + 1) -
      ⌈1 / s.resample_ratio⌉ : ℤ) : ℚ) - s.last_index) /
        (1 / s.resample_ratio)⌉
      ≤ ⌊(s.chunk_size : ℚ) * s.resample_ratio⌋ + 1 :=
    le_trans (Int.ceil_le_ceil hdiv) (Int.ceil_le_floor_add_one _)
  have hmaxle : max ⌈((((s.chunk_size : ℤ) - ((s.interpolator.length : ℤ) + 1) -
      ⌈1 / s.resample_ratio⌉ : ℤ) : ℚ) - s.last_index) /
        (1 / s.resample_ratio)⌉ 0
      ≤ (allocSize s.chunk_size s.resample_ratio : ℤ) := by
    apply max_le
    · omega
    · omega
  obtain ⟨n, idx, wout, hloop, hn0, hnb, hwlen, hwun, hwrl⟩ :=
    loopWhile_spec s.interpolator s.interpolation buf2 (usedIdx win)
      (1 / s.resample_ratio)
      ((s.chunk_size : ℤ) - ((s.interpolator.length : ℤ) + 1) -
        ⌈1 / s.resample_ratio⌉)
      hwf hK ht (usedIdx_nodup win)
      (fun chan hc => by
        have := hmemlt chan hc
        omega)
      (fun chan hc => by
        rw [hb2rows chan, hb1rows chan,
          hbufrow_len chan (by have := hmemlt chan hc; omega)]
        push_cast
        omega)
      ((⌈((((s.chunk_size : ℤ) - ((s.interpolator.length : ℤ) + 1) -
        ⌈1 / s.resample_ratio⌉ : ℤ) : ℚ) - s.last_index) /
          (1 / s.resample_ratio)⌉).toNat + 1)
      0 s.last_index
      ((List.range s.nbr_channels).map fun chan =>
        if chan ∈ usedIdx win then
          List.replicate (allocSize s.chunk_size s.resample_ratio) (0 : ℚ)
        else [])
      hlow
      (fun chan hc => by
        have hcl : chan < s.nbr_channels := by
          have := hmemlt chan hc
          omega
        refine ⟨by simpa using hcl, ?_⟩
        rw [getD_map_range _ _ _ hcl, if_pos hc, List.length_replicate]
        simp only [Nat.cast_zero, zero_add]
        exact hmaxle)
  refine ⟨buf1, buf2, n, idx, wout, hslide, hcopy, hloop,
    by rw [hb2len, hb1len], fun d => by rw [hb2rows d, hb1rows d],
    by simpa using hwlen, hwun, hwrl, ?_⟩
  omega

/- ### Fixed-output assembly and run existence -/

/-- Assembling a successful owned-output `SincFixedOut::process` run. -/
theorem fixedOut_process_eq (s : SincFixedOut) (win : List (List ℚ))
    (used : List ℕ) (buf1 buf2 : List (List ℚ)) (idx : ℚ)
    (wout : List (List ℚ))
    (hC : win.length = s.nbr_channels)
    (hv : validateChans s.needed_input_size 0 win [] = (none, used))
    (hslide : slideAll s.current_buffer_fill s.interpolator.length s.buffer
      = some buf1)
    (hcopy : usedFoldM (fun chan row =>
      if chan < win.length then
        copyRow s.interpolator.length (win.getD chan []) row
      else none) used buf1 = some buf2)
    (hloop : loopFrom s.interpolator s.interpolation buf2 used
      (1 / s.resample_ratio) s.chunk_size 0 s.last_index
      ((List.range s.nbr_channels).map fun chan =>
        if chan ∈ used then List.replicate s.chunk_size (0 : ℚ) else [])
      = some (idx, wout)) :
    s.process win = some (Except.ok wout,
      { s with
        used_channels := used
        buffer := buf2
        current_buffer_fill := s.needed_input_size
        last_index := idx - (s.needed_input_size : ℚ)
        needed_input_size := (⌈idx - (s.needed_input_size : ℚ) +
          (s.chunk_size : ℚ) / s.resample_ratio +
          (s.interpolator.length : ℚ)⌉).toNat + 2 }) := by
  rw [SincFixedOut.process, if_neg (by omega), hv]
  dsimp only
  rw [SincFixedOut.process_unchecked]
  dsimp only
  rw [hslide]
  dsimp only
  rw [hcopy]
  dsimp only
  rw [hloop]

/-- A ready fixed-output engine runs to completion. -/
theorem fixedOut_run_exists (s : SincFixedOut) (win : List (List ℚ))
    (hrdy : s.Ready) (hC : win.length = s.nbr_channels)
    (hrows : ∀ w ∈ win, w ≠ [] → w.length = s.needed_input_size) :
    ∃ buf1 buf2 idx wout,
      slideAll s.current_buffer_fill s.interpolator.length s.buffer
        = some buf1 ∧
      usedFoldM (fun chan row =>
        if chan < win.length then
          copyRow s.interpolator.length (win.getD chan []) row
        else none) (usedIdx win) buf1 = some buf2 ∧
      loopFrom s.interpolator s.interpolation buf2 (usedIdx win)
        (1 / s.resample_ratio) s.chunk_size 0 s.last_index
        ((List.range s.nbr_channels).map fun chan =>
          if chan ∈ usedIdx win then List.replicate s.chunk_size (0 : ℚ)
          else []) = some (idx, wout) ∧
      idx = s.last_index + (s.chunk_size : ℚ) * (1 / s.resample_ratio) ∧
      buf2.length = s.buffer.length ∧
      (∀ d, (buf2.getD d []).length = (s.buffer.getD d []).length) ∧
      wout.length = s.nbr_channels ∧
      (∀ d, d ∉ usedIdx win → wout.getD d []
        = (((List.range s.nbr_channels).map fun chan =>
            if chan ∈ usedIdx win then List.replicate s.chunk_size (0 : ℚ)
            else []).getD d [])) ∧
      (∀ d, (wout.getD d []).length
        = ((((List.range s.nbr_channels).map fun chan =>
            if chan ∈ usedIdx win then List.replicate s.chunk_size (0 : ℚ)
            else []).getD d []).length)) := by
  obtain ⟨hwf, hK, hr, hblenC, hbrows, hlow⟩ := hrdy
  have ht : 0 < 1 / s.resample_ratio := by positivity
  obtain ⟨buf1, hslide, hb1len, hb1rows⟩ := slideAll_spec s.current_buffer_fill
    s.interpolator.length s.buffer (fun row hrow =>
      Or.inr (hbrows row hrow).1)
  have hmemlt : ∀ chan ∈ usedIdx win, chan < win.length :=
    fun chan hc => ((mem_usedIdx win chan).mp hc).1
  obtain ⟨buf2, hcopy, hb2len, hb2rows⟩ := copyFold_spec s.interpolator.length
    win (usedIdx win) buf1 (usedIdx_nodup win) (fun chan hc => by
      have h1 : chan < win.length := hmemlt chan hc
      have h2 : win.getD chan [] ≠ [] := ((mem_usedIdx win chan).mp hc).2
      refine ⟨by omega, h1, Or.inr ?_⟩
      rw [hrows _ (getD_mem win chan [] h1) h2, hb1rows chan]
      exact (hbrows _ (getD_mem s.buffer chan [] (by omega))).2.1)
  obtain ⟨wout, hloop, hwlen, hwun, hwrl⟩ := loopFrom_spec s.interpolator
    s.interpolation buf2 (usedIdx win) (1 / s.resample_ratio) hwf hK ht
    (usedIdx_nodup win)
    (fun chan hc => by
      have := hmemlt chan hc
      omega)
    s.chunk_size 0 s.last_index
    ((List.range s.nbr_channels).map fun chan =>
      if chan ∈ usedIdx win then List.replicate s.chunk_size (0 : ℚ) else [])
    hlow
    (fun chan hc => by
      rw [hb2rows chan, hb1rows chan]
      exact (hbrows _ (getD_mem s.buffer chan []
        (by have := hmemlt chan hc; omega))).2.2)
    (fun chan hc => by
      have hcl : chan < s.nbr_channels := by
        have := hmemlt chan hc
        omega
      refine ⟨by simpa using hcl, ?_⟩
      rw [getD_map_range _ _ _ hcl, if_pos hc, List.length_replicate]
      omega)
  exact ⟨buf1, buf2, s.last_index + (s.chunk_size : ℚ) *
      (1 / s.resample_ratio), wout, hslide, hcopy, hloop, rfl,
    by rw [hb2len, hb1len], fun d => by rw [hb2rows d, hb1rows d],
    by simpa using hwlen, hwun, hwrl⟩

/- ### Emptying one channel filters the used list -/

theorem getD_oob {α : Type} (l : List α) (i : ℕ) (d : α)
    (h : l.length ≤ i) : l.getD i d = d := by
  rw [List.getD_eq_getElem?_getD, List.getElem?_eq_none h]
  rfl

theorem filter_succ_map (c : ℕ) :
    ∀ l : List ℕ, (l.map (· + 1)).filter (fun d => d ≠ c + 1)
      = (l.filter (fun d => d ≠ c)).map (· + 1) := by
  intro l
  induction l with
  | nil => rfl
  | cons x rest ih =>
    simp only [List.map_cons, List.filter_cons]
    by_cases hx : x = c
    · subst hx
      rw [if_neg (by simp), if_neg (by simp), ih]
    · rw [if_pos (by simpa using (by omega : x + 1 ≠ c + 1)),
        if_pos (by simpa using hx), List.map_cons, ih]

theorem filter_ne_zero_map (l : List ℕ) :
    (l.map (· + 1)).filter (fun d => d ≠ 0) = l.map (· + 1) := by
  induction l with
  | nil => rfl
  | cons x rest ih =>
    simp only [List.map_cons, List.filter_cons]
    rw [if_pos (by simp), ih]

theorem usedIdx_set_empty :
    ∀ (waves : List (List ℚ)) (c : ℕ),
      usedIdx (waves.set c []) = (usedIdx waves).filter (fun d => d ≠ c) := by
  intro waves
  induction waves with
  | nil => intro c; rfl
  | cons w rest ih =>
    intro c
    cases c with
    | zero =>
      show usedIdx ([] :: rest) = _
      rw [usedIdx, if_pos rfl]
      by_cases hw : w = []
      · rw [usedIdx, if_pos hw, filter_ne_zero_map]
      · rw [usedIdx, if_neg hw, List.filter_cons,
          if_neg (by simp), filter_ne_zero_map]
    | succ c2 =>
      show usedIdx (w :: rest.set c2 []) = _
      by_cases hw : w = []
      · rw [usedIdx, if_pos hw, ih c2, usedIdx, if_pos hw, filter_succ_map]
      · rw [usedIdx, if_neg hw, ih c2, usedIdx, if_neg hw, List.filter_cons,
          if_pos (by simp), filter_succ_map]

theorem mem_filter_ne (l : List ℕ) (d c : ℕ) :
    d ∈ l.filter (fun x => x ≠ c) ↔ d ∈ l ∧ d ≠ c := by
  simp [List.mem_filter]

/- ### Channel-skip noninterference -/

theorem SincFixedIn.channel_skip (s : SincFixedIn) (win : List (List ℚ))
    (c : ℕ) (hrdy : s.Ready) (hC : win.length = s.nbr_channels)
    (hrows : ∀ w ∈ win, w ≠ [] → w.length = s.chunk_size)
    (hcne : win.getD c [] ≠ []) :
    ∃ outA sA outB sB,
      s.process win = some (Except.ok outA, sA) ∧
      s.process (win.set c []) = some (Except.ok outB, sB) ∧
      outB.getD c [] = [] ∧
      ∀ d, d ≠ c → outA.getD d [] = outB.getD d [] := by
  have hclt : c < win.length := by
    by_contra hcl
    exact hcne (getD_oob win c [] (by omega))
  obtain ⟨buf1, buf2, n, idx, woutA, hslide, hcopyA, hloopA, hb2len, hb2rows,
    hwAlen, hwAun, hwArl, hnal⟩ := SincFixedIn.run_exists s win hrdy hC hrows
  have hvA : validateChans s.chunk_size 0 win [] = (none, usedIdx win) := by
    rw [validateChans_ok s.chunk_size win hrows 0 []]
    simp
  have hprocA := SincFixedIn.process_eq s win (usedIdx win) buf1 buf2 n idx
    woutA hC hvA hslide hcopyA hloopA
  have hrowsB : ∀ w ∈ win.set c [], w ≠ [] → w.length = s.chunk_size := by
    intro w hw hne
    rcases List.mem_or_eq_of_mem_set hw with hw1 | rfl
    · exact hrows w hw1 hne
    · exact absurd rfl hne
  have hCB : (win.set c []).length = s.nbr_channels := by simpa using hC
  have husedB := usedIdx_set_empty win c
  have hvB : validateChans s.chunk_size 0 (win.set c []) []
      = (none, (usedIdx win).filter (fun d => d ≠ c)) := by
    rw [← husedB, validateChans_ok s.chunk_size _ hrowsB 0 []]
    simp
  have hg : ∀ d, d ≠ c → ∀ row : List ℚ,
      (fun (chan : ℕ) (row : List ℚ) =>
        if chan < win.length then
          copyRow s.interpolator.length (win.getD chan []) row
        else none) d row
      = (fun (chan : ℕ) (row : List ℚ) =>
        if chan < (win.set c []).length then
          copyRow s.interpolator.length ((win.set c []).getD chan []) row
        else none) d row := by
    intro d hd row
    dsimp only
    rw [List.length_set, getD_set_ne win c d [] [] (fun hcc => hd hcc.symm)]
  obtain ⟨buf2B, hcopyB, hbA2, hbB2, hbBrows, hbBunch⟩ :=
    usedFoldM_filter_transfer _ _ c hg (usedIdx win) buf1 buf1
      (usedIdx_nodup win) rfl (fun d _ => rfl) buf2 hcopyA
  have hmemBA : ∀ d, d ≠ c →
      (d ∈ (usedIdx win).filter (fun x => x ≠ c) ↔ d ∈ usedIdx win) := by
    intro d hd
    rw [mem_filter_ne]
    exact ⟨fun h => h.1, fun h => ⟨h, hd⟩⟩
  have hw0rows : ∀ d, d ≠ c →
      (((List.range s.nbr_channels).map fun chan =>
        if chan ∈ usedIdx win then
          List.replicate (allocSize s.chunk_size s.resample_ratio) (0 : ℚ)
        else []).getD d [])
      = (((List.range s.nbr_channels).map fun chan =>
        if chan ∈ (usedIdx win).filter (fun x => x ≠ c) then
          List.replicate (allocSize s.chunk_size s.resample_ratio) (0 : ℚ)
        else []).getD d []) := by
    intro d hd
    by_cases hdc : d < s.nbr_channels
    · rw [getD_map_range _ _ _ hdc, getD_map_range _ _ _ hdc]
      by_cases hd2 : d ∈ usedIdx win
      · rw [if_pos hd2, if_pos ((hmemBA d hd).mpr hd2)]
      · rw [if_neg hd2, if_neg (fun hcon => hd2 ((hmemBA d hd).mp hcon))]
    · rw [getD_map_range_oob _ _ _ hdc, getD_map_range_oob _ _ _ hdc]
  obtain ⟨woutB, hloopB, hwA2, hwB2, hwBrows, hwBunch⟩ :=
    loopWhile_transfer s.interpolator s.interpolation buf2 buf2B
      (usedIdx win) c (1 / s.resample_ratio)
      ((s.chunk_size : ℤ) - ((s.interpolator.length : ℤ) + 1) -
        ⌈1 / s.resample_ratio⌉)
      (usedIdx_nodup win) (by rw [hbA2, hbB2]) hbBrows
      ((⌈((((s.chunk_size : ℤ) - ((s.interpolator.length : ℤ) + 1) -
        ⌈1 / s.resample_ratio⌉ : ℤ) : ℚ) - s.last_index) /
          (1 / s.resample_ratio)⌉).toNat + 1)
      0 s.last_index _ _ (by simp) hw0rows n idx woutA hloopA
  have hprocB := SincFixedIn.process_eq s (win.set c [])
    ((usedIdx win).filter (fun d => d ≠ c)) buf1 buf2B n idx woutB hCB hvB
    hslide hcopyB hloopB
  have hcB : c ∉ (usedIdx win).filter (fun x => x ≠ c) :=
    fun h => ((mem_filter_ne _ _ _).mp h).2 rfl
  refine ⟨_, _, _, _, hprocA, hprocB, ?_, ?_⟩
  · rw [foldl_truncate_getD, if_neg hcB]
    rw [hwBunch c hcB]
    by_cases hdc : c < s.nbr_channels
    · rw [getD_map_range _ _ _ hdc, if_neg hcB]
    · rw [getD_map_range_oob _ _ _ hdc]
  · intro d hd
    rw [foldl_truncate_getD, foldl_truncate_getD, hwBrows d hd]
    by_cases hd2 : d ∈ usedIdx win
    · rw [if_pos hd2, if_pos ((hmemBA d hd).mpr hd2)]
    · rw [if_neg hd2, if_neg (fun hcon => hd2 ((hmemBA d hd).mp hcon))]

theorem fixedOut_channel_skip (s : SincFixedOut) (win : List (List ℚ))
    (c : ℕ) (hrdy : s.Ready) (hC : win.length = s.nbr_channels)
    (hrows : ∀ w ∈ win, w ≠ [] → w.length = s.needed_input_size)
    (hcne : win.getD c [] ≠ []) :
    ∃ outA sA outB sB,
      s.process win = some (Except.ok outA, sA) ∧
      s.process (win.set c []) = some (Except.ok outB, sB) ∧
      outB.getD c [] = [] ∧
      ∀ d, d ≠ c → outA.getD d [] = outB.getD d [] := by
  have hclt : c < win.length := by
    by_contra hcl
    exact hcne (getD_oob win c [] (by omega))
  obtain ⟨buf1, buf2, idx, woutA, hslide, hcopyA, hloopA, hidx, hb2len,
    hb2rows, hwAlen, hwAun, hwArl⟩ := fixedOut_run_exists s win hrdy hC
    hrows
  have hvA : validateChans s.needed_input_size 0 win [] = (none, usedIdx win) := by
    rw [validateChans_ok s.needed_input_size win hrows 0 []]
    simp
  have hprocA := fixedOut_process_eq s win (usedIdx win) buf1 buf2 idx
    woutA hC hvA hslide hcopyA hloopA
  have hrowsB : ∀ w ∈ win.set c [], w ≠ [] → w.length = s.needed_input_size := by
    intro w hw hne
    rcases List.mem_or_eq_of_mem_set hw with hw1 | rfl
    · exact hrows w hw1 hne
    · exact absurd rfl hne
  have hCB : (win.set c []).length = s.nbr_channels := by simpa using hC
  have husedB := usedIdx_set_empty win c
  have hvB : validateChans s.needed_input_size 0 (win.set c []) []
      = (none, (usedIdx win).filter (fun d => d ≠ c)) := by
    rw [← husedB, validateChans_ok s.needed_input_size _ hrowsB 0 []]
    simp
  have hg : ∀ d, d ≠ c → ∀ row : List ℚ,
      (fun (chan : ℕ) (row : List ℚ) =>
        if chan < win.length then
          copyRow s.interpolator.length (win.getD chan []) row
        else none) d row
      = (fun (chan : ℕ) (row : List ℚ) =>
        if chan < (win.set c []).length then
          copyRow s.interpolator.length ((win.set c []).getD chan []) row
        else none) d row := by
    intro d hd row
    dsimp only
    rw [List.length_set, getD_set_ne win c d [] [] (fun hcc => hd hcc.symm)]
  obtain ⟨buf2B, hcopyB, hbA2, hbB2, hbBrows, hbBunch⟩ :=
    usedFoldM_filter_transfer _ _ c hg (usedIdx win) buf1 buf1
      (usedIdx_nodup win) rfl (fun d _ => rfl) buf2 hcopyA
  have hmemBA : ∀ d, d ≠ c →
      (d ∈ (usedIdx win).filter (fun x => x ≠ c) ↔ d ∈ usedIdx win) := by
    intro d hd
    rw [mem_filter_ne]
    exact ⟨fun h => h.1, fun h => ⟨h, hd⟩⟩
  have hw0rows : ∀ d, d ≠ c →
      (((List.range s.nbr_channels).map fun chan =>
        if chan ∈ usedIdx win then List.replicate s.chunk_size (0 : ℚ)
        else []).getD d [])
      = (((List.range s.nbr_channels).map fun chan =>
        if chan ∈ (usedIdx win).filter (fun x => x ≠ c) then
          List.replicate s.chunk_size (0 : ℚ)
        else []).getD d []) := by
    intro d hd
    by_cases hdc : d < s.nbr_channels
    · rw [getD_map_range _ _ _ hdc, getD_map_range _ _ _ hdc]
      by_cases hd2 : d ∈ usedIdx win
      · rw [if_pos hd2, if_pos ((hmemBA d hd).mpr hd2)]
      · rw [if_neg hd2, if_neg (fun hcon => hd2 ((hmemBA d hd).mp hcon))]
    · rw [getD_map_range_oob _ _ _ hdc, getD_map_range_oob _ _ _ hdc]
  obtain ⟨woutB, hloopB, hwA2, hwB2, hwBrows, hwBunch⟩ :=
    loopFrom_transfer s.interpolator s.interpolation buf2 buf2B
      (usedIdx win) c (1 / s.resample_ratio)
      (usedIdx_nodup win) (by rw [hbA2, hbB2]) hbBrows
      s.chunk_size 0 s.last_index _ _ (by simp) hw0rows idx woutA hloopA
  have hprocB := fixedOut_process_eq s (win.set c [])
    ((usedIdx win).filter (fun d => d ≠ c)) buf1 buf2B idx woutB hCB hvB
    hslide hcopyB hloopB
  have hcB : c ∉ (usedIdx win).filter (fun x => x ≠ c) :=
    fun h => ((mem_filter_ne _ _ _).mp h).2 rfl
  refine ⟨_, _, _, _, hprocA, hprocB, ?_, ?_⟩
  · rw [hwBunch c hcB]
    by_cases hdc : c < s.nbr_channels
    · rw [getD_map_range _ _ _ hdc, if_neg hcB]
    · rw [getD_map_range_oob _ _ _ hdc]
  · exact hwBrows

/-- C7: Two-run channel-skip noninterference. For either engine started
from a ready state, if a run with valid input (C rows, non-empty rows of
the required length) has channel c non-empty, then the run from the same
state with channel c replaced by the empty row also succeeds, produces an
empty output row for c, and produces output rows identical to the first
run's for every other channel. -/
theorem C7_channel_skip :
    (∀ (s : SincFixedIn) (win : List (List ℚ)) (c : ℕ),
      s.Ready → win.length = s.nbr_channels →
      (∀ w ∈ win, w ≠ [] → w.length = s.chunk_size) →
      win.getD c [] ≠ [] →
      ∃ outA sA outB sB,
        s.process win = some (Except.ok outA, sA) ∧
        s.process (win.set c []) = some (Except.ok outB, sB) ∧
        outB.getD c [] = [] ∧
        ∀ d, d ≠ c → outA.getD d [] = outB.getD d []) ∧
    (∀ (s : SincFixedOut) (win : List (List ℚ)) (c : ℕ),
      s.Ready → win.length = s.nbr_channels →
      (∀ w ∈ win, w ≠ [] → w.length = s.needed_input_size) →
      win.getD c [] ≠ [] →
      ∃ outA sA outB sB,
        s.process win = some (Except.ok outA, sA) ∧
        s.process (win.set c []) = some (Except.ok outB, sB) ∧
        outB.getD c [] = [] ∧
        ∀ d, d ≠ c → outA.getD d [] = outB.getD d []) :=
  ⟨fun s win c h1 h2 h3 h4 => SincFixedIn.channel_skip s win c h1 h2 h3 h4,
   fun s win c h1 h2 h3 h4 => fixedOut_channel_skip s win c h1 h2 h3 h4⟩

theorem C7_channel_skip_witness :
    (∃ outA sA outB sB,
      engFI.process [List.replicate 8 (1 : ℚ), List.replicate 8 (2 : ℚ)]
        = some (Except.ok outA, sA) ∧
      engFI.process
          ([List.replicate 8 (1 : ℚ), List.replicate 8 (2 : ℚ)].set 0 [])
        = some (Except.ok outB, sB) ∧
      outB.getD 0 [] = [] ∧
      ∀ d, d ≠ 0 → outA.getD d [] = outB.getD d []) ∧
    (∃ outA sA outB sB,
      engFO.process [List.replicate 10 (1 : ℚ), List.replicate 10 (2 : ℚ)]
        = some (Except.ok outA, sA) ∧
      engFO.process
          ([List.replicate 10 (1 : ℚ), List.replicate 10 (2 : ℚ)].set 0 [])
        = some (Except.ok outB, sB) ∧
      outB.getD 0 [] = [] ∧
      ∀ d, d ≠ 0 → outA.getD d [] = outB.getD d []) :=
  ⟨C7_channel_skip.1 engFI [List.replicate 8 (1 : ℚ), List.replicate 8 (2 : ℚ)]
      0 (by with_unfolding_all decide) rfl (by with_unfolding_all decide)
      (by with_unfolding_all decide),
   C7_channel_skip.2 engFO
      [List.replicate 10 (1 : ℚ), List.replicate 10 (2 : ℚ)]
      0 (by with_unfolding_all decide) rfl (by with_unfolding_all decide)
      (by with_unfolding_all decide)⟩

/-- C3: for every ready fixed-output engine and every valid input (C rows,
each non-empty row of length needed_input_size), process succeeds and
returns exactly C output rows, and every output row whose input row is
non-empty has length exactly chunk_size. -/
theorem C3_fixed_output_shape (s : SincFixedOut) (win : List (List ℚ))
    (hrdy : s.Ready) (hC : win.length = s.nbr_channels)
    (hrows : ∀ w ∈ win, w ≠ [] → w.length = s.needed_input_size) :
    ∃ out s', s.process win = some (Except.ok out, s') ∧
      out.length = s.nbr_channels ∧
      ∀ d, d < win.length → win.getD d [] ≠ [] →
        (out.getD d []).length = s.chunk_size := by
  obtain ⟨buf1, buf2, idx, wout, hslide, hcopy, hloop, hidx, hb2len, hb2rows,
    hwlen, hwun, hwrl⟩ := fixedOut_run_exists s win hrdy hC hrows
  have hv : validateChans s.needed_input_size 0 win []
      = (none, usedIdx win) := by
    rw [validateChans_ok s.needed_input_size win hrows 0 []]
    simp
  have hproc := fixedOut_process_eq s win (usedIdx win) buf1 buf2 idx
    wout hC hv hslide hcopy hloop
  refine ⟨wout, _, hproc, hwlen, ?_⟩
  intro d hdl hdne
  have hdu : d ∈ usedIdx win := (mem_usedIdx win d).mpr ⟨hdl, hdne⟩
  rw [hwrl d, getD_map_range _ _ _ (by omega), if_pos hdu]
  simp

theorem C3_fixed_output_shape_witness :
    ∃ out s', engFO.process
        [List.replicate 10 (1 : ℚ), List.replicate 10 (1 : ℚ)]
        = some (Except.ok out, s') ∧
      out.length = engFO.nbr_channels ∧
      ∀ d, d < ([List.replicate 10 (1 : ℚ),
          List.replicate 10 (1 : ℚ)] : List (List ℚ)).length →
        ([List.replicate 10 (1 : ℚ),
          List.replicate 10 (1 : ℚ)] : List (List ℚ)).getD d [] ≠ [] →
        (out.getD d []).length = engFO.chunk_size :=
  C3_fixed_output_shape engFO
    [List.replicate 10 (1 : ℚ), List.replicate 10 (1 : ℚ)]
    (by with_unfolding_all decide) rfl (by with_unfolding_all decide)

/-- C9: preallocation of the fixed-input output buffers, corrected. From a
ready state with valid input, process succeeds; each used (non-empty-input)
channel's working row is preallocated before the per-frame loop to exactly
allocSize = floor(chunk_size * ratio + 10) samples — a truncating cast of
chunk_size * ratio + 10.0, not ceil(chunk_size * ratio) + 10 as claimed —
the loop writes n ≤ allocSize frames and never past the allocation, each
used output row is the n-frame prefix, and unused rows are empty. -/
theorem C9_preallocation (s : SincFixedIn) (win : List (List ℚ))
    (hrdy : s.Ready) (hC : win.length = s.nbr_channels)
    (hrows : ∀ w ∈ win, w ≠ [] → w.length = s.chunk_size) :
    allocSize s.chunk_size s.resample_ratio
      = (⌊(s.chunk_size : ℚ) * s.resample_ratio + 10⌋).toNat ∧
    ∃ buf2 n idx wout out s',
      loopWhile s.interpolator s.interpolation buf2 (usedIdx win)
        (1 / s.resample_ratio)
        ((s.chunk_size : ℤ) - ((s.interpolator.length : ℤ) + 1) -
          ⌈1 / s.resample_ratio⌉)
        ((⌈((((s.chunk_size : ℤ) - ((s.interpolator.length : ℤ) + 1) -
          ⌈1 / s.resample_ratio⌉ : ℤ) : ℚ) - s.last_index) /
            (1 / s.resample_ratio)⌉).toNat + 1)
        0 s.last_index
        ((List.range s.nbr_channels).map fun chan =>
          if chan ∈ usedIdx win then
            List.replicate (allocSize s.chunk_size s.resample_ratio) (0 : ℚ)
          else []) = some (n, idx, wout) ∧
      (∀ d, d ∈ usedIdx win →
        ((((List.range s.nbr_channels).map fun chan =>
          if chan ∈ usedIdx win then
            List.replicate (allocSize s.chunk_size s.resample_ratio) (0 : ℚ)
          else []).getD d []).length
          = allocSize s.chunk_size s.resample_ratio)) ∧
      n ≤ allocSize s.chunk_size s.resample_ratio ∧
      (∀ d, (wout.getD d []).length ≤ allocSize s.chunk_size s.resample_ratio) ∧
      s.process win = some (Except.ok out, s') ∧
      (∀ d, d ∈ usedIdx win → out.getD d [] = (wout.getD d []).take n) ∧
      (∀ d, d ∈ usedIdx win → (out.getD d []).length = n) ∧
      (∀ d, d ∉ usedIdx win → out.getD d [] = []) := by
  refine ⟨rfl, ?_⟩
  obtain ⟨buf1, buf2, n, idx, wout, hslide, hcopy, hloop, hb2len, hb2rows,
    hwlen, hwun, hwrl, hnal⟩ := SincFixedIn.run_exists s win hrdy hC hrows
  have hv : validateChans s.chunk_size 0 win [] = (none, usedIdx win) := by
    rw [validateChans_ok s.chunk_size win hrows 0 []]
    simp
  have hproc := SincFixedIn.process_eq s win (usedIdx win) buf1 buf2 n idx
    wout hC hv hslide hcopy hloop
  have hdlt : ∀ d, d ∈ usedIdx win → d < s.nbr_channels := by
    intro d hd
    have := ((mem_usedIdx win d).mp hd).1
    omega
  have hw0len : ∀ d, d ∈ usedIdx win →
      ((((List.range s.nbr_channels).map fun chan =>
        if chan ∈ usedIdx win then
          List.replicate (allocSize s.chunk_size s.resample_ratio) (0 : ℚ)
        else []).getD d []).length
        = allocSize s.chunk_size s.resample_ratio) := by
    intro d hd
    rw [getD_map_range _ _ _ (hdlt d hd), if_pos hd]
    simp
  have hwrowlen : ∀ d, (wout.getD d []).length
      ≤ allocSize s.chunk_size s.resample_ratio := by
    intro d
    rw [hwrl d]
    by_cases hdc : d < s.nbr_channels
    · rw [getD_map_range _ _ _ hdc]
      by_cases hd2 : d ∈ usedIdx win
      · rw [if_pos hd2]
        simp
      · rw [if_neg hd2]
        simp
    · rw [getD_map_range_oob _ _ _ hdc]
      simp
  refine ⟨buf2, n, idx, wout, _, _, hloop, hw0len, hnal, hwrowlen, hproc,
    ?_, ?_, ?_⟩
  · intro d hd
    rw [foldl_truncate_getD, if_pos hd]
  · intro d hd
    rw [foldl_truncate_getD, if_pos hd, List.length_take, hwrl d,
      getD_map_range _ _ _ (hdlt d hd), if_pos hd, List.length_replicate]
    omega
  · intro d hd
    rw [foldl_truncate_getD, if_neg hd, hwun d hd]
    by_cases hdc : d < s.nbr_channels
    · rw [getD_map_range _ _ _ hdc, if_neg hd]
    · rw [getD_map_range_oob _ _ _ hdc]

theorem C9_preallocation_witness :
    allocSize engFI.chunk_size engFI.resample_ratio
      = (⌊(engFI.chunk_size : ℚ) * engFI.resample_ratio + 10⌋).toNat ∧
    ∃ buf2 n idx wout out s',
      loopWhile engFI.interpolator engFI.interpolation buf2
        (usedIdx [List.replicate 8 (1 : ℚ), List.replicate 8 (2 : ℚ)])
        (1 / engFI.resample_ratio)
        ((engFI.chunk_size : ℤ) - ((engFI.interpolator.length : ℤ) + 1) -
          ⌈1 / engFI.resample_ratio⌉)
        ((⌈((((engFI.chunk_size : ℤ) - ((engFI.interpolator.length : ℤ) + 1) -
          ⌈1 / engFI.resample_ratio⌉ : ℤ) : ℚ) - engFI.last_index) /
            (1 / engFI.resample_ratio)⌉).toNat + 1)
        0 engFI.last_index
        ((List.range engFI.nbr_channels).map fun chan =>
          if chan ∈ usedIdx [List.replicate 8 (1 : ℚ),
              List.replicate 8 (2 : ℚ)] then
            List.replicate
              (allocSize engFI.chunk_size engFI.resample_ratio) (0 : ℚ)
          else []) = some (n, idx, wout) ∧
      (∀ d, d ∈ usedIdx [List.replicate 8 (1 : ℚ),
          List.replicate 8 (2 : ℚ)] →
        ((((List.range engFI.nbr_channels).map fun chan =>
          if chan ∈ usedIdx [List.replicate 8 (1 : ℚ),
              List.replicate 8 (2 : ℚ)] then
            List.replicate
              (allocSize engFI.chunk_size engFI.resample_ratio) (0 : ℚ)
          else []).getD d []).length
          = allocSize engFI.chunk_size engFI.resample_ratio)) ∧
      n ≤ allocSize engFI.chunk_size engFI.resample_ratio ∧
      (∀ d, (wout.getD d []).length
        ≤ allocSize engFI.chunk_size engFI.resample_ratio) ∧
      engFI.process [List.replicate 8 (1 : ℚ), List.replicate 8 (2 : ℚ)]
        = some (Except.ok out, s') ∧
      (∀ d, d ∈ usedIdx [List.replicate 8 (1 : ℚ),
          List.replicate 8 (2 : ℚ)] →
        out.getD d [] = (wout.getD d []).take n) ∧
      (∀ d, d ∈ usedIdx [List.replicate 8 (1 : ℚ),
          List.replicate 8 (2 : ℚ)] →
        (out.getD d []).length = n) ∧
      (∀ d, d ∉ usedIdx [List.replicate 8 (1 : ℚ),
          List.replicate 8 (2 : ℚ)] →
        out.getD d [] = []) :=
  C9_preallocation engFI
    [List.replicate 8 (1 : ℚ), List.replicate 8 (2 : ℚ)]
    (by with_unfolding_all decide) rfl (by with_unfolding_all decide)

theorem C9_alloc_counterexample :
    allocSize 1024 (6 / 5) = 1238 ∧
    (⌈(1024 : ℚ) * (6 / 5)⌉).toNat + 10 = 1239 ∧
    allocSize 1024 (6 / 5) ≠ (⌈(1024 : ℚ) * (6 / 5)⌉).toNat + 10 :=
  ⟨by with_unfolding_all decide, by with_unfolding_all decide,
   by with_unfolding_all decide⟩
